import Mathlib

/-!
A verification development for the `saltyorg/sdc` container orchestrator.

The Go source is shallowly embedded: pure Go functions become Lean
functions, map-backed state becomes association lists / explicit state
passing, Docker I/O becomes a pure `Daemon` oracle, and goroutine
fan-out/fan-in is modelled by the sequential schedule that processes
components, batches and nodes in list order (all verified statements are
insensitive to that order).  Go's unbounded recursions (the DFS walks)
are embedded with an explicit fuel argument; the fuel chosen by each
caller is proved (or, for concrete inputs, computed) to be adequate, so
the fuelled function agrees with the Go original on every execution the
Go program actually performs.
-/

namespace SDC

/-! ## Go string primitives -/

/-- `unicode.IsSpace` from the Go standard library: the White_Space
property, used by `strings.TrimSpace`. -/
def goIsSpace (c : Char) : Bool :=
  c = ' ' || c = '\t' || c = '\n' ||
  c = Char.ofNat 0x0B || c = Char.ofNat 0x0C || c = '\r' ||
  c = Char.ofNat 0x85 || c = Char.ofNat 0xA0 ||
  c = Char.ofNat 0x1680 ||
  (Char.ofNat 0x2000 ≤ c && c ≤ Char.ofNat 0x200A) ||
  c = Char.ofNat 0x2028 || c = Char.ofNat 0x2029 ||
  c = Char.ofNat 0x202F || c = Char.ofNat 0x205F || c = Char.ofNat 0x3000

/-- `strings.TrimSpace`: drop leading and trailing white space. -/
def goTrimSpace (s : String) : String :=
  String.mk (((s.data.dropWhile goIsSpace).reverse.dropWhile goIsSpace).reverse)

def splitOnChar (sep : Char) : List Char → List (List Char)
  | [] => [[]]
  | c :: rest =>
      if c = sep then [] :: splitOnChar sep rest
      else
        match splitOnChar sep rest with
        | [] => [[c]]
        | g :: gs => (c :: g) :: gs

/-- `strings.Split`/`strings.SplitSeq` with a one-character separator,
with the Go semantics (`"" ↦ [""]`, `"a,,b" ↦ ["a", "", "b"]`). -/
def goSplit (s : String) (sep : Char) : List String :=
  (splitOnChar sep s.data).map String.mk

/-- `strings.ToLower` (the inputs compared against are ASCII). -/
def goToLower (s : String) : String :=
  String.mk (s.data.map Char.toLower)

def parseDigitsAux : List Char → Nat → Option Nat
  | [], acc => some acc
  | c :: cs, acc =>
      if c.isDigit then parseDigitsAux cs (acc * 10 + (c.toNat - 48)) else none

/-- All-digit parse of a nonempty run of characters. -/
def parseDigits (cs : List Char) : Option Nat :=
  if cs.isEmpty then none else parseDigitsAux cs 0

/-- `strconv.Atoi`: optional sign, base-10 digits, 64-bit range check
(out-of-range input returns an error in Go, hence `none` here). -/
def goAtoi (s : String) : Option Int :=
  match s.data with
  | '+' :: rest =>
      (parseDigits rest).bind fun n =>
        if (n : Int) ≤ 2 ^ 63 - 1 then some (n : Int) else none
  | '-' :: rest =>
      (parseDigits rest).bind fun n =>
        if (n : Int) ≤ 2 ^ 63 then some (-(n : Int)) else none
  | cs =>
      (parseDigits cs).bind fun n =>
        if (n : Int) ≤ 2 ^ 63 - 1 then some (n : Int) else none

/-! ## Label parser (`internal/docker`, `ParseLabels`) -/

/-- `docker.ContainerLabels`. -/
structure ContainerLabels where
  Managed : Bool
  DependsOn : List String
  DependsOnDelay : Int
  DependsOnHealthchecks : Bool
  ControllerEnabled : Bool
  deriving Repr, DecidableEq

def managedKey : String := "com.github.saltbox.saltbox_managed"
def controllerKey : String := "com.github.saltbox.saltbox_controller"
def dependsOnKey : String := "com.github.saltbox.depends_on"
def delayKey : String := "com.github.saltbox.depends_on.delay"
def healthchecksKey : String := "com.github.saltbox.depends_on.healthchecks"

/-- The comma-split/trim/drop-empties accumulation loop shared by
`ParseLabels` (dependencies) and the stop handler (`ignore` values). -/
def trimSplitAppend (acc : List String) (v : String) : List String :=
  (goSplit v ',').foldl
    (fun acc dep =>
      let trimmed := goTrimSpace dep
      if trimmed ≠ "" then acc ++ [trimmed] else acc) acc

/-- The dependency-splitting loop inside `ParseLabels`. -/
def splitDeps (v : String) : List String :=
  trimSplitAppend [] v

/-- `docker.ParseLabels`.  A Go `map[string]string` is embedded as a
lookup function (the parser only performs key lookups). -/
def ParseLabels (labels : String → Option String) : ContainerLabels :=
  let managed : Bool :=
    match labels managedKey with
    | some v => goToLower v = "true"
    | none => false
  let controller : Bool :=
    match labels controllerKey with
    | some v => goToLower v ≠ "false"
    | none => true
  let deps : List String :=
    match labels dependsOnKey with
    | some v => if v ≠ "" then splitDeps v else []
    | none => []
  let delay : Int :=
    match labels delayKey with
    | some v =>
        match goAtoi v with
        | some k => if k > 0 then k else 0
        | none => 0
    | none => 0
  let health : Bool :=
    match labels healthchecksKey with
    | some v => goToLower v = "true"
    | none => false
  { Managed := managed
    DependsOn := deps
    DependsOnDelay := delay
    DependsOnHealthchecks := health
    ControllerEnabled := controller }

/-- `(*ContainerLabels).IsManaged`. -/
def ContainerLabels.IsManaged (l : ContainerLabels) : Bool :=
  l.Managed && l.ControllerEnabled

/-- `(*ContainerLabels).GetDependencies`. -/
def ContainerLabels.GetDependencies (l : ContainerLabels) : List String :=
  l.DependsOn

/-- `(*ContainerLabels).GetStartupDelay`. -/
def ContainerLabels.GetStartupDelay (l : ContainerLabels) : Int :=
  l.DependsOnDelay

/-- `(*ContainerLabels).ShouldWaitForHealthcheck`. -/
def ContainerLabels.ShouldWaitForHealthcheck (l : ContainerLabels) : Bool :=
  l.DependsOnHealthchecks

/-- The dependency list as the spec words it ("split on commas,
whitespace trimmed from each element, empty elements dropped"), used to
compare the code's fold against the spec's description. -/
def specDependencyList (v : String) : List String :=
  ((goSplit v ',').map goTrimSpace).filter (fun t => t ≠ "")

theorem trimSplitAppend_eq (acc : List String) (v : String) :
    trimSplitAppend acc v = acc ++ specDependencyList v := by
  unfold trimSplitAppend specDependencyList
  generalize goSplit v ',' = l
  induction l generalizing acc with
  | nil => simp
  | cons x xs ih =>
      rw [List.foldl_cons]
      by_cases hx : goTrimSpace x = ""
      · rw [show (if goTrimSpace x ≠ "" then acc ++ [goTrimSpace x] else acc)
            = acc from by simp [hx], ih]
        simp [hx]
      · rw [show (if goTrimSpace x ≠ "" then acc ++ [goTrimSpace x] else acc)
            = acc ++ [goTrimSpace x] from by simp [hx], ih]
        simp [hx]

theorem splitDeps_eq_spec (v : String) : splitDeps v = specDependencyList v := by
  unfold splitDeps
  simpa using trimSplitAppend_eq [] v

/-! ## Graph data model (`internal/graph/types.go`)

Go's `Node` holds mutable pointers to parent/child nodes; the embedding
identifies nodes by their (unique) name and resolves pointers through an
environment `env : List Node` standing for the heap.  A `Graph`'s
name-keyed map becomes the list of names `dom` it holds (Go map
iteration order is arbitrary; every statement proved below is quantified
over the order via the list).  The transient `visited`/`inStack`/
`sortIndex` fields become explicit traversal state. -/

structure Node where
  ID : String
  name : String
  IsRunning : Bool
  IsPlaceholder : Bool
  Parents : List String
  Children : List String
  StartupDelay : Int
  WaitForHealthcheck : Bool
  StopTimeout : Option Int
  deriving Repr, DecidableEq

def lookupNode (env : List Node) (s : String) : Option Node :=
  env.find? (fun n => n.name = s)

def envNames (env : List Node) : List String :=
  env.map (fun n => n.name)

/-- Builder-established heap invariants: names are unique and every
parent/child pointer resolves. -/
def WF (env : List Node) : Prop :=
  (envNames env).Nodup ∧
  (∀ n ∈ env, ∀ p ∈ n.Parents, ∃ q ∈ env, q.name = p) ∧
  (∀ n ∈ env, ∀ c ∈ n.Children, ∃ q ∈ env, q.name = c)

instance (env : List Node) : Decidable (WF env) := by
  unfold WF; infer_instance

/-- The non-placeholder parents of a node, in `Parents` order (the
`parent.IsPlaceholder { continue }` loops in `sort.go`). -/
def realParents (env : List Node) (n : Node) : List Node :=
  (n.Parents.filterMap (lookupNode env)).filter (fun q => !q.IsPlaceholder)

def isRealName (env : List Node) (s : String) : Bool :=
  match lookupNode env s with
  | some q => !q.IsPlaceholder
  | none => false

/-! ### Directed paths, used to state "graph with/without cycles" -/

/-- `ParentStep env a b`: the node named `a` has the non-placeholder
node named `b` among its parents. -/
def ParentStep (env : List Node) (a b : String) : Prop :=
  ∃ n ∈ env, n.name = a ∧ ∃ q ∈ realParents env n, q.name = b

/-- A directed path of `k ≥ 1` parent edges. -/
inductive ParentPath (env : List Node) : String → String → Nat → Prop where
  | single {a b : String} : ParentStep env a b → ParentPath env a b 1
  | cons {a b c : String} {k : Nat} :
      ParentStep env a b → ParentPath env b c k → ParentPath env a c (k + 1)

/-- "The graph has no cycles", on the dependency (parent) relation. -/
def ParentAcyclic (env : List Node) : Prop :=
  ∀ a k, ¬ ParentPath env a a k

/-- `ChildStep env a b`: the node named `a` lists `b` among its
children (the relation walked by `HasCycles`). -/
def ChildStep (env : List Node) (a b : String) : Prop :=
  ∃ n ∈ env, n.name = a ∧ b ∈ n.Children

/-- A directed path of `k ≥ 1` child edges. -/
inductive ChildPath (env : List Node) : String → String → Nat → Prop where
  | single {a b : String} : ChildStep env a b → ChildPath env a b 1
  | cons {a b c : String} {k : Nat} :
      ChildStep env a b → ChildPath env b c k → ChildPath env a c (k + 1)

/-! ### Cycle detection (`builder.go`, `HasCycles`) -/

inductive GErr where
  | cycle (ws : List String)
  | noContainers
  | listFailed (msg : String)
  deriving Repr, DecidableEq

structure CycState where
  visited : List String
  stack : List String
  cyc : List String
  deriving Repr, DecidableEq

/-- Fuel adequate for the node-at-a-time DFS walks: a chain of nested
calls that do work marks pairwise distinct nodes visited, so nesting
never exceeds `env.length + 1`. -/
def sortFuel (env : List Node) : Nat := env.length + 1

/-- The `dfs` closure inside `HasCycles`: tri-colour DFS over the child
relation; on finding a back edge it accumulates the names along the
unwinding recursion into `cyc`.  The boolean `acc.1` short-circuits the
child loop exactly as Go's early `return true` does. -/
def dfsCycle (env : List Node) : Nat → String → CycState → Bool × CycState
  | 0, _, st => (false, st)
  | fuel + 1, name, st =>
      if name ∈ st.stack then (true, { st with cyc := st.cyc ++ [name] })
      else if name ∈ st.visited then (false, st)
      else
        match lookupNode env name with
        | none => (false, st)
        | some n =>
            let st1 : CycState :=
              { st with visited := name :: st.visited, stack := name :: st.stack }
            let r := n.Children.foldl
              (fun (acc : Bool × CycState) c =>
                if acc.1 then acc else dfsCycle env fuel c acc.2)
              (false, st1)
            if r.1 then (true, { r.2 with cyc := r.2.cyc ++ [name] })
            else (false, { r.2 with stack := r.2.stack.erase name })

/-- `(*Graph).HasCycles`: run `dfs` from every unvisited node of the
graph (placeholders included); return the reversed witness on success. -/
def HasCycles (env : List Node) (dom : List String) : Bool × List String :=
  let r := dom.foldl
    (fun (acc : Bool × CycState) name =>
      if acc.1 then acc
      else if name ∈ acc.2.visited then acc
      else dfsCycle env (sortFuel env) name acc.2)
    (false, ⟨[], [], []⟩)
  if r.1 then (true, r.2.cyc.reverse) else (false, [])

/-- `(*Graph).Validate` (the placeholder count emits no error). -/
def Validate (env : List Node) (dom : List String) : Option GErr :=
  let r := HasCycles env dom
  if r.1 then some (GErr.cycle r.2) else none

/-! ### Topological sort (`sort.go`) -/

structure VisitState where
  visited : List String
  sorted : List String
  deriving Repr, DecidableEq

/-- The `visit` closure inside `TopologicalSort`: mark, visit all
parents first, then emit the node unless it is a placeholder.  (Go's
`visit` can never return a non-nil error, so it is total here.) -/
def visit (env : List Node) : Nat → String → VisitState → VisitState
  | 0, _, st => st
  | fuel + 1, name, st =>
      if name ∈ st.visited then st
      else
        match lookupNode env name with
        | none => st
        | some n =>
            let st1 : VisitState := { st with visited := name :: st.visited }
            let st2 := n.Parents.foldl (fun s p => visit env fuel p s) st1
            if n.IsPlaceholder then st2
            else { st2 with sorted := st2.sorted ++ [name] }

/-- The top-level loop of `TopologicalSort`: visit every unvisited
non-placeholder node of the graph. -/
def topSortAll (env : List Node) (dom : List String) : VisitState :=
  dom.foldl
    (fun st name =>
      match lookupNode env name with
      | none => st
      | some n =>
          if name ∉ st.visited ∧ ¬ n.IsPlaceholder then
            visit env (sortFuel env) name st
          else st)
    ⟨[], []⟩

/-- `(*Graph).TopologicalSort`, returning the startup order (the
shutdown order is its reverse and is consumed nowhere the claims
reach). -/
def TopologicalSort (env : List Node) (dom : List String) :
    Except GErr (List String) :=
  match Validate env dom with
  | some e => .error e
  | none =>
      let st := topSortAll env dom
      if st.sorted.length = 0 then .error GErr.noContainers
      else .ok st.sorted

/-! ### Batch layering (`sort.go`, `GetStartupBatches`) -/

/-- The `calculateDepth` closure.  The Go original memoises into a
`depths` map; since it only ever executes on graphs `Validate` accepted
(acyclic ones), the memo table is a pure optimisation and the
non-memoised recursion below computes the same value.  Fuel stands in
for Go's unbounded recursion; under acyclicity any fuel `≥ env.length`
yields the stable value (proved below). -/
def calculateDepth (env : List Node) : Nat → Node → Nat
  | 0, _ => 0
  | fuel + 1, n =>
      if n.Parents.isEmpty then 0
      else
        match ((realParents env n).map (calculateDepth env fuel)).max? with
        | none => 0
        | some d => d + 1

/-- Depth of the node with a given name (`depths[node.Name]`). -/
def depthOf (env : List Node) (name : String) : Nat :=
  match lookupNode env name with
  | some n => calculateDepth env (sortFuel env) n
  | none => 0

/-- The maximal depth over the sorted nodes (`maxDepth` in Go,
starting from 0). -/
def layerMax (env : List Node) (sorted : List String) : Nat :=
  sorted.foldl (fun m name => max m (depthOf env name)) 0

/-- The batch-grouping loop of `GetStartupBatches`: `batches[d]`
receives the sorted nodes of depth `d` in sorted order, which is
exactly a filter of the sorted list. -/
def layerBatches (env : List Node) (sorted : List String) :
    List (List String) :=
  (List.range (layerMax env sorted + 1)).map
    (fun i => sorted.filter (fun name => depthOf env name = i))

/-- `(*Graph).GetStartupBatches`. -/
def GetStartupBatches (env : List Node) (dom : List String) :
    Except GErr (List (List String)) :=
  (TopologicalSort env dom).map (layerBatches env)

/-- `(*Graph).GetShutdownBatches`: the reverse sequence of the startup
batches (the Go index loop writing `len-1-i` is `List.reverse`). -/
def GetShutdownBatches (env : List Node) (dom : List String) :
    Except GErr (List (List String)) :=
  (GetStartupBatches env dom).map List.reverse

/-! ### Connected components (`components.go`) -/

/-- Iteration bound for `findComponent`'s explicit stack loop: one
initial push plus at most one push per edge endpoint of each node
(each node pushes its neighbours at most once, when it is first
visited). -/
def componentFuel (env : List Node) : Nat :=
  1 + env.foldl (fun acc n => acc + n.Parents.length + n.Children.length + 1) 0

/-- `(*Graph).findComponent`'s loop.  The Go slice-stack pops from the
end and appends pushes at the end; the list here keeps the top at the
head, so a block of pushes is prepended reversed. -/
def findComponentLoop (env : List Node) :
    Nat → List String → List String → List String → List String × List String
  | 0, _, visited, comp => (visited, comp)
  | _ + 1, [], visited, comp => (visited, comp)
  | fuel + 1, name :: stack, visited, comp =>
      match lookupNode env name with
      | none => findComponentLoop env fuel stack visited comp
      | some n =>
          if name ∈ visited ∨ n.IsPlaceholder then
            findComponentLoop env fuel stack visited comp
          else
            let keep : String → Bool := fun s =>
              decide (s ∉ visited) && isRealName env s
            let pushes := n.Parents.filter keep ++ n.Children.filter keep
            findComponentLoop env fuel (pushes.reverse ++ stack)
              (name :: visited) (comp ++ [name])

def findComponent (env : List Node) (visited : List String) (start : String) :
    List String × List String :=
  findComponentLoop env (componentFuel env) [start] visited []

/-- `(*Graph).getBatchesForComponent`: batches of the subgraph whose
map holds exactly the component's nodes (depth and visit recursion
still chase heap pointers, hence `env`). -/
def getBatchesForComponent (env : List Node) (comp : List String) :
    Except GErr (List (List String)) :=
  GetStartupBatches env comp

/-- One iteration of `GetConnectedComponents`' loop over the graph's
nodes (the accumulator pairs the Go function's result-so-far with the
shared visited marks). -/
def gccStep (env : List Node)
    (acc : Except GErr (List (List (List String))) × List String)
    (name : String) :
    Except GErr (List (List (List String))) × List String :=
  match acc.1 with
  | .error _ => acc
  | .ok comps =>
      match lookupNode env name with
      | none => acc
      | some n =>
          if name ∈ acc.2 ∨ n.IsPlaceholder then acc
          else
            let fc := findComponent env acc.2 name
            if fc.2.length > 0 then
              match getBatchesForComponent env fc.2 with
              | .error e => (.error e, fc.1)
              | .ok batches => (.ok (comps ++ [batches]), fc.1)
            else (.ok comps, fc.1)

/-- `(*Graph).GetConnectedComponents`.  A component is represented by
its batch list.  An error from a component's batches aborts the whole
computation, as Go's early `return nil, err` does. -/
def GetConnectedComponents (env : List Node) (dom : List String) :
    Except GErr (List (List (List String))) :=
  (dom.foldl (gccStep env) (.ok [], [])).1

/-- `(*Graph).GetConnectedComponentsForShutdown`: same components with
the batch sequence of each reversed. -/
def GetConnectedComponentsForShutdown (env : List Node) (dom : List String) :
    Except GErr (List (List (List String))) :=
  (GetConnectedComponents env dom).map (fun comps => comps.map List.reverse)

/-! ## Graphs without real nodes (claim C10) -/

section NoRealNodes

variable {env : List Node}

lemma mem_of_lookupNode {s : String} {n : Node}
    (h : lookupNode env s = some n) : n ∈ env :=
  List.mem_of_find?_eq_some h

lemma lookupNode_name {s : String} {n : Node}
    (h : lookupNode env s = some n) : n.name = s := by
  have := List.find?_some h
  simpa using this

/-- In a heap of childless placeholders, `dfs` finds nothing and
restores the (empty) stack. -/
lemma dfsCycle_all_placeholder
    (h : ∀ n ∈ env, n.IsPlaceholder = true ∧ n.Children = []) :
    ∀ fuel name (st : CycState), st.stack = [] →
      (dfsCycle env fuel name st).1 = false ∧
      (dfsCycle env fuel name st).2.stack = [] := by
  intro fuel name st hst
  cases fuel with
  | zero => exact ⟨rfl, hst⟩
  | succ fuel =>
      unfold dfsCycle
      rw [hst]
      simp only [List.not_mem_nil, if_false]
      by_cases hv : name ∈ st.visited
      · simp [hv, hst]
      · simp only [hv, if_false]
        cases hlook : lookupNode env name with
        | none => exact ⟨rfl, hst⟩
        | some n =>
            have hn := h n (mem_of_lookupNode hlook)
            simp [hn.2, hst, List.erase_cons_head]

lemma hasCycles_all_placeholder
    (h : ∀ n ∈ env, n.IsPlaceholder = true ∧ n.Children = []) (dom : List String) :
    HasCycles env dom = (false, []) := by
  unfold HasCycles
  suffices hfold : ∀ (st : CycState), st.stack = [] →
      (dom.foldl
        (fun (acc : Bool × CycState) name =>
          if acc.1 then acc
          else if name ∈ acc.2.visited then acc
          else dfsCycle env (sortFuel env) name acc.2)
        (false, st)).1 = false by
    have := hfold ⟨[], [], []⟩ rfl
    simp only at this
    simp [this]
  induction dom with
  | nil => intro st hst; simp
  | cons d ds ih =>
      intro st hst
      simp only [List.foldl_cons, if_false]
      by_cases hv : d ∈ st.visited
      · simpa [hv] using ih st hst
      · have hd := dfsCycle_all_placeholder h (sortFuel env) d st hst
        simp only [hv, if_false]
        rcases hres : dfsCycle env (sortFuel env) d st with ⟨b, st'⟩
        rw [hres] at hd
        cases b with
        | true => simp at hd
        | false => simpa using ih st' hd.2

lemma topSortAll_all_placeholder
    (h : ∀ n ∈ env, n.IsPlaceholder = true) (dom : List String) :
    topSortAll env dom = ⟨[], []⟩ := by
  unfold topSortAll
  induction dom with
  | nil => rfl
  | cons d ds ih =>
      simp only [List.foldl_cons]
      cases hlook : lookupNode env d with
      | none => simpa [hlook] using ih
      | some n =>
          have := h n (mem_of_lookupNode hlook)
          simpa [hlook, this] using ih

/-- Claim C10: a graph with no non-placeholder node (in any built graph
placeholders also have no children, since children are only ever added
from managed containers) makes `TopologicalSort` fail with the
"no containers to sort" error — not return an empty ordering — and
`GetStartupBatches` / `GetShutdownBatches` propagate that error. -/
theorem topologicalSort_no_real_nodes_errors
    (env : List Node) (dom : List String)
    (h : ∀ n ∈ env, n.IsPlaceholder = true ∧ n.Children = []) :
    TopologicalSort env dom = .error GErr.noContainers ∧
    GetStartupBatches env dom = .error GErr.noContainers ∧
    GetShutdownBatches env dom = .error GErr.noContainers := by
  have hts : TopologicalSort env dom = .error GErr.noContainers := by
    unfold TopologicalSort Validate
    rw [hasCycles_all_placeholder h dom,
        topSortAll_all_placeholder (fun n hn => (h n hn).1) dom]
    rfl
  refine ⟨hts, ?_, ?_⟩
  · unfold GetStartupBatches; rw [hts]; rfl
  · unfold GetShutdownBatches GetStartupBatches; rw [hts]; rfl

/-- A concrete real node, for examples and witnesses. -/
def plainNode (nm : String) (ps cs : List String) : Node :=
  { ID := nm, name := nm, IsRunning := false, IsPlaceholder := false,
    Parents := ps, Children := cs, StartupDelay := 0,
    WaitForHealthcheck := false, StopTimeout := none }

/-- `NewPlaceholderNode`: placeholder for a missing dependency. -/
def NewPlaceholderNode (nm : String) : Node :=
  { ID := "", name := nm, IsRunning := false, IsPlaceholder := true,
    Parents := [], Children := [], StartupDelay := 0,
    WaitForHealthcheck := false, StopTimeout := none }

/-- Witness for C10 at a concrete one-placeholder graph. -/
theorem topologicalSort_no_real_nodes_errors_witness :
    TopologicalSort [NewPlaceholderNode "missing"] ["missing"]
      = .error GErr.noContainers :=
  (topologicalSort_no_real_nodes_errors [NewPlaceholderNode "missing"]
    ["missing"] (by decide)).1

end NoRealNodes

/-! ## Shutdown batches are reversed startup batches (claim C7) -/

/-- Claim C7: whenever the component decomposition succeeds, the
shutdown decomposition returns the same components with each
component's batch sequence reversed (so batch contents — the node
lists, hence sets — are preserved); likewise the whole-graph shutdown
batches are the reverse of the startup batches. -/
theorem shutdown_batches_are_reversed_startup
    (env : List Node) (dom : List String)
    (comps : List (List (List String)))
    (hcc : GetConnectedComponents env dom = .ok comps) :
    GetConnectedComponentsForShutdown env dom = .ok (comps.map List.reverse) ∧
    ∀ batches, GetStartupBatches env dom = .ok batches →
      GetShutdownBatches env dom = .ok batches.reverse := by
  constructor
  · unfold GetConnectedComponentsForShutdown
    rw [hcc]; rfl
  · intro batches hb
    unfold GetShutdownBatches
    rw [hb]; rfl

/-- Witness for C7 at the chain graph `a → b`. -/
theorem shutdown_batches_are_reversed_startup_witness :
    GetConnectedComponentsForShutdown
      [plainNode "a" [] ["b"], plainNode "b" ["a"] []] ["a", "b"]
      = .ok [[["b"], ["a"]]] :=
  (shutdown_batches_are_reversed_startup
    [plainNode "a" [] ["b"], plainNode "b" ["a"] []]
    ["a", "b"] [[["a"], ["b"]]] rfl).1

/-! ## Depth is well defined on acyclic graphs

`calculateDepth` recurses along parent edges; on a cycle-free graph
every parent chain is shorter than the node count (pigeonhole), so any
fuel `≥ env.length` computes the stable depth, and a node's depth
strictly exceeds each non-placeholder parent's. -/

section Depth

variable {env : List Node}

lemma realParents_elim {n q : Node} (h : q ∈ realParents env n) :
    q ∈ env ∧ q.IsPlaceholder = false ∧
    ∃ p ∈ n.Parents, lookupNode env p = some q := by
  unfold realParents at h
  rcases List.mem_filter.mp h with ⟨hmem, hreal⟩
  rcases List.mem_filterMap.mp hmem with ⟨p, hp, hlook⟩
  exact ⟨mem_of_lookupNode hlook, by simpa using hreal, p, hp, hlook⟩

lemma parentStep_of_mem {n q : Node} (hn : n ∈ env)
    (hq : q ∈ realParents env n) : ParentStep env n.name q.name :=
  ⟨n, hn, rfl, q, hq, rfl⟩

lemma name_mem_envNames {n : Node} (hn : n ∈ env) : n.name ∈ envNames env :=
  List.mem_map.mpr ⟨n, hn, rfl⟩

lemma parentStep_src {a b : String} (h : ParentStep env a b) :
    a ∈ envNames env := by
  rcases h with ⟨n, hn, hname, _⟩
  exact hname ▸ name_mem_envNames hn

lemma parentStep_tgt {a b : String} (h : ParentStep env a b) :
    b ∈ envNames env := by
  rcases h with ⟨n, _, _, q, hq, hname⟩
  exact hname ▸ name_mem_envNames (realParents_elim hq).1

lemma parentPath_to_chain {a b : String} {k : Nat}
    (h : ParentPath env a b k) :
    ∃ ys : List String,
      List.Chain' (ParentStep env) (a :: ys ++ [b]) ∧ ys.length + 1 = k := by
  induction h with
  | single hstep => exact ⟨[], by simp [hstep], rfl⟩
  | @cons a' m c' k' hstep _ ih =>
      rcases ih with ⟨ys, hch, hlen⟩
      refine ⟨m :: ys, ?_, by simp [← hlen]⟩
      simpa using List.Chain'.cons hstep (by simpa using hch)

lemma chain_to_parentPath :
    ∀ (ys : List String) {a b : String},
      List.Chain' (ParentStep env) (a :: ys ++ [b]) →
      ParentPath env a b (ys.length + 1)
  | [], a, b, h => ParentPath.single (by simpa using h.rel_head)
  | y :: ys, a, b, h => by
      have hstep : ParentStep env a y := by simpa using h.rel_head
      have htail : List.Chain' (ParentStep env) (y :: ys ++ [b]) := by
        simpa using h.tail
      exact ParentPath.cons hstep (chain_to_parentPath ys htail)

lemma chain_mem_names :
    ∀ (w : List String), List.Chain' (ParentStep env) w → 2 ≤ w.length →
      ∀ v ∈ w, v ∈ envNames env
  | [], _, hlen, _, _ => by simp at hlen
  | [_], _, hlen, _, _ => by simp at hlen
  | a :: b :: rest, hch, _, v, hv => by
      have hstep : ParentStep env a b := hch.rel_head
      have htail : List.Chain' (ParentStep env) (b :: rest) := hch.tail
      rcases List.mem_cons.mp hv with hva | hv'
      · exact hva ▸ parentStep_src hstep
      · cases rest with
        | nil =>
            have : v = b := by simpa using hv'
            exact this ▸ parentStep_tgt hstep
        | cons c rest' =>
            exact chain_mem_names (b :: c :: rest') htail (by simp) v hv'

lemma exists_dup_split {α : Type} :
    ∀ (l : List α), ¬ l.Nodup →
      ∃ (x : α) (p m s : List α), l = p ++ x :: m ++ x :: s
  | [], h => absurd List.nodup_nil h
  | y :: t, h => by
      by_cases hy : y ∈ t
      · rcases List.append_of_mem hy with ⟨s₁, s₂, rfl⟩
        exact ⟨y, [], s₁, s₂, rfl⟩
      · have ht : ¬ t.Nodup := by
          intro hnd; exact h (List.nodup_cons.mpr ⟨hy, hnd⟩)
        rcases exists_dup_split t ht with ⟨x, p, m, s, rfl⟩
        exact ⟨x, y :: p, m, s, rfl⟩

/-- Pigeonhole: on a cycle-free graph every parent path has at most
`env.length` edges. -/
lemma parentPath_length_le (hac : ParentAcyclic env) {a b : String} {k : Nat}
    (hp : ParentPath env a b k) : k ≤ env.length := by
  by_contra hgt
  push_neg at hgt
  rcases parentPath_to_chain hp with ⟨ys, hch, hlen⟩
  set w : List String := a :: ys ++ [b] with hw
  have hwlen : w.length = k + 1 := by simp [hw, ← hlen]
  have hmem : ∀ v ∈ w, v ∈ envNames env :=
    chain_mem_names w hch (by simp [hw])
  have hnames : (envNames env).length = env.length := by
    simp [envNames]
  have hnotnodup : ¬ w.Nodup := by
    intro hnd
    have : w.length ≤ (envNames env).length :=
      (hnd.subperm hmem).length_le
    omega
  rcases exists_dup_split w hnotnodup with ⟨x, p, m, s, hsplit⟩
  have hinf : (x :: m ++ [x]) <:+: w := by
    refine ⟨p, s, ?_⟩
    rw [hsplit]
    simp
  have hcyc : List.Chain' (ParentStep env) (x :: m ++ [x]) :=
    hch.infix hinf
  exact hac x (m.length + 1) (chain_to_parentPath m hcyc)

lemma calculateDepth_no_real_parents {n : Node}
    (h : realParents env n = []) :
    ∀ k, calculateDepth env k n = 0 := by
  intro k
  cases k with
  | zero => rfl
  | succ k =>
      unfold calculateDepth
      by_cases hp : n.Parents.isEmpty <;> simp [hp, h]

/-- Depth stabilisation: once the fuel covers the longest parent chain
from a node, the computed depth no longer depends on the fuel. -/
lemma calculateDepth_stable :
    ∀ (m : Nat) (n : Node), n ∈ env →
      (∀ b k, ParentPath env n.name b k → k ≤ m) →
      ∀ k₁ k₂, m ≤ k₁ → m ≤ k₂ →
        calculateDepth env k₁ n = calculateDepth env k₂ n := by
  intro m
  induction m with
  | zero =>
      intro n hn hb k₁ k₂ _ _
      have hrp : realParents env n = [] := by
        cases hq : realParents env n with
        | nil => rfl
        | cons q qs =>
            have hq' : q ∈ realParents env n := by rw [hq]; exact List.mem_cons_self q qs
            have := hb q.name 1 (ParentPath.single (parentStep_of_mem hn hq'))
            omega
      rw [calculateDepth_no_real_parents hrp, calculateDepth_no_real_parents hrp]
  | succ m ih =>
      intro n hn hb k₁ k₂ hk₁ hk₂
      obtain ⟨a, rfl⟩ : ∃ a, k₁ = a + 1 := ⟨k₁ - 1, by omega⟩
      obtain ⟨c, rfl⟩ : ∃ c, k₂ = c + 1 := ⟨k₂ - 1, by omega⟩
      show calculateDepth env (a + 1) n = calculateDepth env (c + 1) n
      unfold calculateDepth
      by_cases hp : n.Parents.isEmpty
      · simp [hp]
      · simp only [hp, if_false]
        have hmap :
            (realParents env n).map (calculateDepth env a)
              = (realParents env n).map (calculateDepth env c) := by
          apply List.map_congr_left
          intro q hq
          have hqenv : q ∈ env := (realParents_elim hq).1
          have hstep : ParentStep env n.name q.name := parentStep_of_mem hn hq
          have hqb : ∀ b k, ParentPath env q.name b k → k ≤ m := by
            intro b k hpath
            have := hb b (k + 1) (ParentPath.cons hstep hpath)
            omega
          exact ih q hqenv hqb a c (by omega) (by omega)
        rw [hmap]

lemma parentPath_bound_global (hac : ParentAcyclic env) (n : Node) :
    ∀ b k, ParentPath env n.name b k → k ≤ env.length :=
  fun _ k hp => parentPath_length_le hac hp

lemma max?_ge_of_mem : ∀ (l : List Nat) (x : Nat), x ∈ l →
    ∃ M, l.max? = some M ∧ x ≤ M := by
  intro l
  cases l with
  | nil => intro x hx; simp at hx
  | cons y t =>
      intro x hx
      refine ⟨t.foldl max y, by simp [List.max?], ?_⟩
      suffices h : ∀ (t : List Nat) (y : Nat),
          y ≤ t.foldl max y ∧ ∀ x ∈ t, x ≤ t.foldl max y by
        rcases List.mem_cons.mp hx with rfl | hx'
        · exact (h t x).1
        · exact (h t y).2 x hx'
      intro t
      induction t with
      | nil => intro y; simp
      | cons z t iht =>
          intro y
          constructor
          · exact le_trans (le_max_left y z) (iht (max y z)).1
          · intro x hx
            rcases List.mem_cons.mp hx with rfl | hx'
            · exact le_trans (le_max_right y x) (iht (max y x)).1
            · exact (iht (max y z)).2 x hx'

lemma calculateDepth_succ (fuel : Nat) (n : Node) :
    calculateDepth env (fuel + 1) n =
      if n.Parents.isEmpty then 0
      else
        match ((realParents env n).map (calculateDepth env fuel)).max? with
        | none => 0
        | some d => d + 1 := rfl

lemma parents_not_isEmpty_of_realParent {n q : Node}
    (hq : q ∈ realParents env n) : n.Parents.isEmpty = false := by
  rcases (realParents_elim hq).2.2 with ⟨p, hp, _⟩
  cases hpar : n.Parents with
  | nil => rw [hpar] at hp; simp at hp
  | cons _ _ => simp [hpar]

/-- A node's depth strictly exceeds each of its non-placeholder
parents' depths, at the fuel `GetStartupBatches` uses. -/
lemma calculateDepth_parent_lt (hac : ParentAcyclic env)
    {n q : Node} (hn : n ∈ env) (hq : q ∈ realParents env n) :
    calculateDepth env (sortFuel env) q < calculateDepth env (sortFuel env) n := by
  have hqenv : q ∈ env := (realParents_elim hq).1
  have hstab :
      calculateDepth env env.length q = calculateDepth env (sortFuel env) q :=
    calculateDepth_stable env.length q hqenv
      (parentPath_bound_global hac q) env.length (sortFuel env)
      (le_refl _) (by simp [sortFuel])
  have hp := parents_not_isEmpty_of_realParent hq
  have hmem : calculateDepth env env.length q
      ∈ (realParents env n).map (calculateDepth env env.length) :=
    List.mem_map.mpr ⟨q, hq, rfl⟩
  rcases max?_ge_of_mem _ _ hmem with ⟨M, hM, hle⟩
  have hn1 : calculateDepth env (sortFuel env) n = M + 1 := by
    show calculateDepth env (env.length + 1) n = M + 1
    rw [calculateDepth_succ]
    simp [hp, hM]
  omega

/-- Depth zero characterises the nodes with no non-placeholder
parents. -/
lemma calculateDepth_zero_iff {n : Node} (hn : n ∈ env) :
    calculateDepth env (sortFuel env) n = 0 ↔ realParents env n = [] := by
  constructor
  · intro h0
    cases hq : realParents env n with
    | nil => rfl
    | cons q qs =>
        exfalso
        have hq' : q ∈ realParents env n := by
          rw [hq]; exact List.mem_cons_self q qs
        have hp := parents_not_isEmpty_of_realParent hq'
        have hmem : calculateDepth env env.length q
            ∈ (realParents env n).map (calculateDepth env env.length) :=
          List.mem_map.mpr ⟨q, hq', rfl⟩
        rcases max?_ge_of_mem _ _ hmem with ⟨M, hM, _⟩
        rw [show sortFuel env = env.length + 1 from rfl,
            calculateDepth_succ] at h0
        simp [hp, hM] at h0
  · intro h
    exact calculateDepth_no_real_parents h _

end Depth

/-! ## Specification of the topological-sort DFS

`visit` is specified by a pre/postcondition pair: with adequate fuel it
monotonically grows the visited set, emits exactly the newly visited
non-placeholder nodes, and marks every parent of an emitted node. -/

section VisitSpec

variable {env : List Node}

lemma length_le_of_nodup_subset {l₁ l₂ : List String}
    (h : l₁.Nodup) (hs : l₁ ⊆ l₂) : l₁.length ≤ l₂.length :=
  (h.subperm hs).length_le

def VisitPre (env : List Node) (fuel : Nat) (st : VisitState) : Prop :=
  st.visited.Nodup ∧ (∀ x ∈ st.visited, x ∈ envNames env) ∧
  env.length + 1 ≤ fuel + st.visited.length

structure VisitPost (env : List Node) (st st' : VisitState) : Prop where
  nodup : st'.visited.Nodup
  sub : ∀ x ∈ st'.visited, x ∈ envNames env
  mono : ∀ x ∈ st.visited, x ∈ st'.visited
  sorted_ext : ∃ diff, st'.sorted = st.sorted ++ diff ∧
      ∀ m ∈ diff, m ∈ st'.visited ∧ m ∉ st.visited ∧ isRealName env m = true
  parents_marked : ∀ m ∈ st'.sorted, m ∉ st.sorted →
      ∀ nm, lookupNode env m = some nm → ∀ p ∈ nm.Parents, p ∈ st'.visited
  new_real_emitted : ∀ x ∈ st'.visited, x ∉ st.visited →
      isRealName env x = true → x ∈ st'.sorted

lemma visitPost_refl (hnd : st.visited.Nodup)
    (hsub : ∀ x ∈ st.visited, x ∈ envNames env) : VisitPost env st st where
  nodup := hnd
  sub := hsub
  mono := fun _ hx => hx
  sorted_ext := ⟨[], by simp, by simp⟩
  parents_marked := fun m hm hm' => absurd hm hm'
  new_real_emitted := fun x hx hx' => absurd hx hx'

lemma visitPost_trans {st st₁ st₂ : VisitState}
    (h₁ : VisitPost env st st₁) (h₂ : VisitPost env st₁ st₂) :
    VisitPost env st st₂ where
  nodup := h₂.nodup
  sub := h₂.sub
  mono := fun x hx => h₂.mono x (h₁.mono x hx)
  sorted_ext := by
    rcases h₁.sorted_ext with ⟨d₁, he₁, hd₁⟩
    rcases h₂.sorted_ext with ⟨d₂, he₂, hd₂⟩
    refine ⟨d₁ ++ d₂, by simp [he₂, he₁], ?_⟩
    intro m hm
    rcases List.mem_append.mp hm with hm₁ | hm₂
    · rcases hd₁ m hm₁ with ⟨ha, hb, hc⟩
      exact ⟨h₂.mono m ha, hb, hc⟩
    · rcases hd₂ m hm₂ with ⟨ha, hb, hc⟩
      exact ⟨ha, fun hmem => hb (h₁.mono m hmem), hc⟩
  parents_marked := by
    intro m hm hnot nm hlook p hp
    by_cases hm₁ : m ∈ st₁.sorted
    · exact h₂.mono p (h₁.parents_marked m hm₁ hnot nm hlook p hp)
    · exact h₂.parents_marked m hm hm₁ nm hlook p hp
  new_real_emitted := by
    intro x hx hnot hreal
    by_cases hx₁ : x ∈ st₁.visited
    · have := h₁.new_real_emitted x hx₁ hnot hreal
      rcases h₂.sorted_ext with ⟨d₂, he₂, _⟩
      rw [he₂]
      exact List.mem_append_left _ this
    · exact h₂.new_real_emitted x hx hx₁ hreal

lemma visitPre_of_post {fuel : Nat} {st st' : VisitState}
    (hpre : VisitPre env fuel st) (hpost : VisitPost env st st') :
    VisitPre env fuel st' := by
  refine ⟨hpost.nodup, hpost.sub, ?_⟩
  have := length_le_of_nodup_subset hpre.1 (fun x hx => hpost.mono x hx)
  have h3 := hpre.2.2
  omega

lemma visit_succ (fuel : Nat) (name : String) (st : VisitState) :
    visit env (fuel + 1) name st =
      if name ∈ st.visited then st
      else
        match lookupNode env name with
        | none => st
        | some n =>
            let st1 : VisitState := { st with visited := name :: st.visited }
            let st2 := n.Parents.foldl (fun s p => visit env fuel p s) st1
            if n.IsPlaceholder then st2
            else { st2 with sorted := st2.sorted ++ [name] } := rfl

lemma lookupNode_isSome_of_exists {p : String} {env : List Node}
    (h : ∃ q ∈ env, q.name = p) : ∃ nd, lookupNode env p = some nd := by
  rcases h with ⟨q, hq, rfl⟩
  induction env with
  | nil => cases hq
  | cons n t ih =>
      by_cases hn : n.name = q.name
      · refine ⟨n, ?_⟩
        unfold lookupNode
        rw [List.find?_cons_of_pos _ (by simp [hn])]
      · rcases List.mem_cons.mp hq with rfl | hq'
        · exact absurd rfl hn
        · rcases ih hq' with ⟨nd, hnd⟩
          refine ⟨nd, ?_⟩
          unfold lookupNode at hnd ⊢
          rw [List.find?_cons_of_neg _ (by simp [hn])]
          exact hnd

/-- With unique names, looking a node's own name up returns that node. -/
lemma lookupNode_self {env : List Node} (hnd : (envNames env).Nodup)
    {q : Node} (hq : q ∈ env) : lookupNode env q.name = some q := by
  induction env with
  | nil => cases hq
  | cons n t ih =>
      have hcons : (n.name :: envNames t).Nodup := by
        simpa [envNames] using hnd
      have hnd' : (envNames t).Nodup := (List.nodup_cons.mp hcons).2
      have hnmem : n.name ∉ envNames t := (List.nodup_cons.mp hcons).1
      rcases List.mem_cons.mp hq with rfl | hq'
      · unfold lookupNode
        rw [List.find?_cons_of_pos _ (by simp)]
      · have hne : ¬ (n.name = q.name) := by
          intro heq
          exact hnmem (heq ▸ name_mem_envNames hq')
        unfold lookupNode at ih ⊢
        rw [List.find?_cons_of_neg _ (by simp [hne])]
        exact ih hnd' hq'

lemma visitFold_spec (fuel : Nat)
    (hvisit : ∀ name st, VisitPre env fuel st →
      VisitPost env st (visit env fuel name st) ∧
      (∀ nd, lookupNode env name = some nd →
        name ∈ (visit env fuel name st).visited)) :
    ∀ (ps : List String) (st : VisitState), VisitPre env fuel st →
      VisitPost env st (ps.foldl (fun s p => visit env fuel p s) st) ∧
      VisitPre env fuel (ps.foldl (fun s p => visit env fuel p s) st) ∧
      (∀ p ∈ ps, ∀ nd, lookupNode env p = some nd →
        p ∈ (ps.foldl (fun s p => visit env fuel p s) st).visited) := by
  intro ps
  induction ps with
  | nil =>
      intro st hpre
      exact ⟨visitPost_refl hpre.1 hpre.2.1, hpre, by simp⟩
  | cons p ps ih =>
      intro st hpre
      rcases hvisit p st hpre with ⟨hpost₁, hmem₁⟩
      have hpre₁ := visitPre_of_post hpre hpost₁
      rcases ih (visit env fuel p st) hpre₁ with ⟨hpost₂, hpre₂, hmem₂⟩
      refine ⟨visitPost_trans hpost₁ hpost₂, hpre₂, ?_⟩
      intro x hx nd hlook
      rcases List.mem_cons.mp hx with rfl | hx'
      · exact hpost₂.mono x (hmem₁ nd hlook)
      · exact hmem₂ x hx' nd hlook

theorem visit_spec (hwf : WF env) :
    ∀ (fuel : Nat) (name : String) (st : VisitState), VisitPre env fuel st →
      VisitPost env st (visit env fuel name st) ∧
      (∀ nd, lookupNode env name = some nd →
        name ∈ (visit env fuel name st).visited) := by
  intro fuel
  induction fuel with
  | zero =>
      intro name st hpre
      exfalso
      have h1 : st.visited.length ≤ (envNames env).length :=
        length_le_of_nodup_subset hpre.1 hpre.2.1
      have h2 : (envNames env).length = env.length := by simp [envNames]
      have h3 := hpre.2.2
      omega
  | succ fuel ih =>
      intro name st hpre
      rw [visit_succ]
      by_cases hv : name ∈ st.visited
      · rw [if_pos hv]
        exact ⟨visitPost_refl hpre.1 hpre.2.1, fun _ _ => hv⟩
      · rw [if_neg hv]
        cases hlook : lookupNode env name with
        | none =>
            exact ⟨visitPost_refl hpre.1 hpre.2.1,
              fun nd hnd => Option.noConfusion hnd⟩
        | some n =>
            simp only
            set st1 : VisitState := { st with visited := name :: st.visited }
              with hst1
            have hnenv : n ∈ env := mem_of_lookupNode hlook
            have hname : name ∈ envNames env := by
              have := lookupNode_name hlook
              exact this ▸ name_mem_envNames hnenv
            have hpre1 : VisitPre env fuel st1 := by
              refine ⟨List.nodup_cons.mpr ⟨hv, hpre.1⟩, ?_, ?_⟩
              · intro x hx
                rcases List.mem_cons.mp hx with rfl | hx'
                · exact hname
                · exact hpre.2.1 x hx'
              · have := hpre.2.2
                simp only [hst1, List.length_cons]
                omega
            rcases visitFold_spec fuel ih n.Parents st1 hpre1 with
              ⟨hpostf, hpref, hmemf⟩
            set stf := n.Parents.foldl (fun s p => visit env fuel p s) st1
              with hstf
            have hmono1 : ∀ x ∈ st.visited, x ∈ st1.visited := by
              intro x hx; exact List.mem_cons_of_mem _ hx
            have hnamef : name ∈ stf.visited :=
              hpostf.mono name (List.mem_cons_self _ _)
            have hsorted1 : st1.sorted = st.sorted := rfl
            rcases hpostf.sorted_ext with ⟨df, hdf, hdfel⟩
            -- parents of `name` are all marked after the fold
            have hparents : ∀ p ∈ n.Parents, p ∈ stf.visited := by
              intro p hp
              rcases lookupNode_isSome_of_exists (hwf.2.1 n hnenv p hp) with
                ⟨nd, hnd⟩
              exact hmemf p hp nd hnd
            by_cases hph : n.IsPlaceholder
            · simp only [hph, if_true]
              have hrealname : isRealName env name = false := by
                unfold isRealName
                rw [hlook]
                simp [hph]
              refine ⟨?_, fun _ _ => hnamef⟩
              exact
                { nodup := hpostf.nodup
                  sub := hpostf.sub
                  mono := fun x hx => hpostf.mono x (hmono1 x hx)
                  sorted_ext := by
                    refine ⟨df, by rw [hdf, hsorted1], ?_⟩
                    intro m hm
                    rcases hdfel m hm with ⟨ha, hb, hc⟩
                    exact ⟨ha, fun hmem => hb (hmono1 m hmem), hc⟩
                  parents_marked := by
                    intro m hm hnot nm hlookm p hp
                    exact hpostf.parents_marked m hm
                      (by rw [hsorted1]; exact hnot) nm hlookm p hp
                  new_real_emitted := by
                    intro x hx hnot hreal
                    by_cases hxn : x = name
                    · subst hxn
                      rw [hrealname] at hreal
                      cases hreal
                    · have hx1 : x ∉ st1.visited := by
                        simp only [hst1, List.mem_cons]
                        push_neg
                        exact ⟨hxn, hnot⟩
                      exact hpostf.new_real_emitted x hx hx1 hreal }
            · simp only [hph, if_false]
              have hrealname : isRealName env name = true := by
                unfold isRealName
                rw [hlook]
                simp [hph]
              refine ⟨?_, fun _ _ => hnamef⟩
              exact
                { nodup := hpostf.nodup
                  sub := hpostf.sub
                  mono := fun x hx => hpostf.mono x (hmono1 x hx)
                  sorted_ext := by
                    refine ⟨df ++ [name], by simp [hdf, hsorted1], ?_⟩
                    intro m hm
                    rcases List.mem_append.mp hm with hm₁ | hm₂
                    · rcases hdfel m hm₁ with ⟨ha, hb, hc⟩
                      exact ⟨ha, fun hmem => hb (hmono1 m hmem), hc⟩
                    · have : m = name := by simpa using hm₂
                      subst this
                      exact ⟨hnamef, hv, hrealname⟩
                  parents_marked := by
                    intro m hm hnot nm hlookm p hp
                    rcases List.mem_append.mp hm with hm₁ | hm₂
                    · exact hpostf.parents_marked m hm₁
                        (by rw [hsorted1]; exact hnot) nm hlookm p hp
                    · have : m = name := by simpa using hm₂
                      subst this
                      have : nm = n := by
                        rw [hlook] at hlookm
                        exact (Option.some.injEq _ _ ▸ hlookm).symm ▸ rfl
                      subst this
                      exact hparents p hp
                  new_real_emitted := by
                    intro x hx hnot hreal
                    by_cases hxn : x = name
                    · subst hxn
                      simp
                    · have hx1 : x ∉ st1.visited := by
                        simp only [hst1, List.mem_cons]
                        push_neg
                        exact ⟨hxn, hnot⟩
                      have := hpostf.new_real_emitted x hx hx1 hreal
                      exact List.mem_append_left _ this }

end VisitSpec

/-! ## From the DFS spec to the batch-ordering claim (C1) -/

section BatchOrdering

variable {env : List Node}

lemma topSortAll_fold (hwf : WF env) :
    ∀ (dom : List String) (st : VisitState), VisitPre env (sortFuel env) st →
      VisitPost env st (List.foldl
        (fun st name =>
          match lookupNode env name with
          | none => st
          | some n =>
              if name ∉ st.visited ∧ ¬ n.IsPlaceholder then
                visit env (sortFuel env) name st
              else st) st dom) := by
  intro dom
  induction dom with
  | nil => intro st hpre; exact visitPost_refl hpre.1 hpre.2.1
  | cons d ds ih =>
      intro st hpre
      simp only [List.foldl_cons]
      cases hlook : lookupNode env d with
      | none => exact ih st hpre
      | some n =>
          simp only
          by_cases hc : d ∉ st.visited ∧ ¬ n.IsPlaceholder
          · rw [if_pos hc]
            have h1 := (visit_spec hwf (sortFuel env) d st hpre).1
            have hpre1 := visitPre_of_post hpre h1
            exact visitPost_trans h1 (ih _ hpre1)
          · rw [if_neg hc]
            exact ih st hpre

lemma visitPre_init : VisitPre env (sortFuel env) ⟨[], []⟩ :=
  ⟨List.nodup_nil, by simp, by simp [sortFuel]⟩

lemma topSortAll_post (hwf : WF env) (dom : List String) :
    VisitPost env ⟨[], []⟩ (topSortAll env dom) := by
  unfold topSortAll
  exact topSortAll_fold hwf dom ⟨[], []⟩ visitPre_init

lemma topSortAll_sorted_real (hwf : WF env) (dom : List String) :
    ∀ m ∈ (topSortAll env dom).sorted, isRealName env m = true := by
  intro m hm
  rcases (topSortAll_post hwf dom).sorted_ext with ⟨diff, hdiff, hel⟩
  rw [hdiff] at hm
  exact (hel m (by simpa using hm)).2.2

lemma topSortAll_parent_closed (hwf : WF env) (dom : List String) :
    ∀ m ∈ (topSortAll env dom).sorted, ∀ nm, lookupNode env m = some nm →
      ∀ q ∈ realParents env nm, q.name ∈ (topSortAll env dom).sorted := by
  intro m hm nm hlook q hq
  have hpost := topSortAll_post hwf dom
  rcases realParents_elim hq with ⟨hqenv, hqph, p, hp, hplook⟩
  have hpname : q.name = p := lookupNode_name hplook
  have hpvis : p ∈ (topSortAll env dom).visited :=
    hpost.parents_marked m hm (by simp) nm hlook p hp
  have hpreal : isRealName env p = true := by
    unfold isRealName
    rw [hplook]
    simp [hqph]
  rw [hpname]
  exact hpost.new_real_emitted p hpvis (by simp) hpreal

lemma topologicalSort_ok_elim {dom : List String} {sorted : List String}
    (h : TopologicalSort env dom = .ok sorted) :
    sorted = (topSortAll env dom).sorted := by
  unfold TopologicalSort at h
  cases hval : Validate env dom with
  | some e => rw [hval] at h; cases h
  | none =>
      rw [hval] at h
      by_cases hlen : (topSortAll env dom).sorted.length = 0
      · rw [if_pos hlen] at h; cases h
      · rw [if_neg hlen] at h
        exact (Except.ok.injEq _ _ ▸ h).symm

lemma getStartupBatches_ok_elim {dom : List String}
    {B : List (List String)} (h : GetStartupBatches env dom = .ok B) :
    ∃ sorted, TopologicalSort env dom = .ok sorted ∧
      B = layerBatches env sorted := by
  unfold GetStartupBatches at h
  cases hts : TopologicalSort env dom with
  | error e => rw [hts] at h; cases h
  | ok s =>
      rw [hts] at h
      exact ⟨s, rfl, ((Except.ok.injEq _ _).mp h).symm⟩

lemma foldl_max_ge (f : String → Nat) :
    ∀ (l : List String) (acc : Nat),
      acc ≤ l.foldl (fun m x => max m (f x)) acc ∧
      ∀ x ∈ l, f x ≤ l.foldl (fun m x => max m (f x)) acc := by
  intro l
  induction l with
  | nil => intro acc; simp
  | cons y t ih =>
      intro acc
      simp only [List.foldl_cons]
      constructor
      · exact le_trans (le_max_left acc (f y)) (ih (max acc (f y))).1
      · intro x hx
        rcases List.mem_cons.mp hx with rfl | hx'
        · exact le_trans (le_max_right acc (f x)) (ih (max acc (f x))).1
        · exact (ih (max acc (f y))).2 x hx'

lemma layerMax_ge {sorted : List String} {m : String} (hm : m ∈ sorted) :
    depthOf env m ≤ layerMax env sorted :=
  (foldl_max_ge (depthOf env) sorted 0).2 m hm

lemma layerBatches_length (sorted : List String) :
    (layerBatches env sorted).length = layerMax env sorted + 1 := by
  simp [layerBatches]

lemma mem_layerBatches_iff {sorted : List String} {i : Nat} {m : String}
    (hi : i < (layerBatches env sorted).length) :
    m ∈ (layerBatches env sorted).get ⟨i, hi⟩ ↔
      m ∈ sorted ∧ depthOf env m = i := by
  have hget : (layerBatches env sorted).get ⟨i, hi⟩
      = sorted.filter (fun name => depthOf env name = i) := by
    simp [layerBatches]
  rw [hget]
  simp [List.mem_filter]

lemma gcc_ok_elim {dom : List String} {comps : List (List (List String))}
    (h : GetConnectedComponents env dom = .ok comps) :
    ∀ C ∈ comps, ∃ sub, GetStartupBatches env sub = .ok C := by
  unfold GetConnectedComponents at h
  suffices hg : ∀ (d : List String)
      (acc : Except GErr (List (List (List String))) × List String),
      (∀ cs, acc.1 = .ok cs → ∀ C ∈ cs, ∃ sub, GetStartupBatches env sub = .ok C) →
      ∀ cs, (d.foldl (gccStep env) acc).1 = .ok cs →
        ∀ C ∈ cs, ∃ sub, GetStartupBatches env sub = .ok C by
    exact hg dom (.ok [], []) (by rintro cs hcs C hC; cases hcs; simp at hC) comps h
  intro d
  induction d with
  | nil => intro acc hacc cs hcs; exact hacc cs hcs
  | cons x xs ih =>
      intro acc hacc cs hcs
      rw [List.foldl_cons] at hcs
      refine ih _ ?_ cs hcs
      intro cs₁ hcs₁ C hC
      rcases acc with ⟨accE, accV⟩
      cases accE with
      | error e => exact hacc cs₁ hcs₁ C hC
      | ok comps₀ =>
          unfold gccStep at hcs₁
          simp only at hcs₁
          cases hlook : lookupNode env x with
          | none => rw [hlook] at hcs₁; exact hacc cs₁ hcs₁ C hC
          | some n =>
              rw [hlook] at hcs₁
              simp only at hcs₁
              by_cases hcond : x ∈ accV ∨ n.IsPlaceholder
              · rw [if_pos hcond] at hcs₁; exact hacc cs₁ hcs₁ C hC
              · rw [if_neg hcond] at hcs₁
                by_cases hfc : (findComponent env accV x).2.length > 0
                · rw [if_pos hfc] at hcs₁
                  cases hb : getBatchesForComponent env
                      (findComponent env accV x).2 with
                  | error e => rw [hb] at hcs₁; cases hcs₁
                  | ok batches =>
                      rw [hb] at hcs₁
                      simp only at hcs₁
                      have hcs'' : comps₀ ++ [batches] = cs₁ :=
                        (Except.ok.injEq _ _).mp hcs₁
                      rw [← hcs''] at hC
                      rcases List.mem_append.mp hC with hold | hnew
                      · exact hacc comps₀ rfl C hold
                      · have : C = batches := by simpa using hnew
                        subst this
                        exact ⟨(findComponent env accV x).2, hb⟩
                · rw [if_neg hfc] at hcs₁
                  simp only at hcs₁
                  have : comps₀ = cs₁ := (Except.ok.injEq _ _).mp hcs₁
                  rw [← this] at hC
                  exact hacc comps₀ rfl C hC

/-- The non-placeholder parents of the node with a given name. -/
def realParentsOf (env : List Node) (m : String) : List Node :=
  match lookupNode env m with
  | some nm => realParents env nm
  | none => []

/-- A ranking certificate for acyclicity, used to discharge
`ParentAcyclic` at concrete graphs. -/
lemma parentAcyclic_of_rank (env : List Node) (rank : String → Nat)
    (h : ∀ n ∈ env, ∀ q ∈ realParents env n, rank q.name < rank n.name) :
    ParentAcyclic env := by
  have hstep : ∀ a b, ParentStep env a b → rank b < rank a := by
    rintro a b ⟨n, hn, rfl, q, hq, rfl⟩
    exact h n hn q hq
  have hpath : ∀ a b k, ParentPath env a b k → rank b < rank a := by
    intro a b k hp
    induction hp with
    | single hs => exact hstep _ _ hs
    | cons hs _ ih => exact lt_trans ih (hstep _ _ hs)
  intro a k hp
  exact absurd (hpath a a k hp) (lt_irrefl _)

/-- Claim C1: in a cycle-free graph, for every component returned by
`GetConnectedComponents` and every node `m` placed in batch `i`, every
non-placeholder parent of `m` is placed in some batch `j < i` of the
same component; moreover batch 0 holds exactly the placed nodes with no
non-placeholder parents (a placed node sits in batch 0 iff it has
none). -/
theorem startup_batches_respect_dependencies
    (env : List Node) (dom : List String)
    (hwf : WF env) (hac : ParentAcyclic env)
    (comps : List (List (List String)))
    (hcc : GetConnectedComponents env dom = .ok comps)
    (C : List (List String)) (hC : C ∈ comps) :
    (∀ i, ∀ hi : i < C.length, ∀ m ∈ C.get ⟨i, hi⟩,
       ∀ q ∈ realParentsOf env m,
         ∃ j, ∃ hj : j < C.length, j < i ∧ q.name ∈ C.get ⟨j, hj⟩) ∧
    (∀ i, ∀ hi : i < C.length, ∀ m ∈ C.get ⟨i, hi⟩,
       (realParentsOf env m = [] ↔ i = 0)) := by
  obtain ⟨sub, hsub⟩ := gcc_ok_elim hcc C hC
  obtain ⟨sorted, hts, hlayer⟩ := getStartupBatches_ok_elim hsub
  have hsorted_eq : sorted = (topSortAll env sub).sorted :=
    topologicalSort_ok_elim hts
  subst hlayer
  have hreal : ∀ m ∈ sorted, isRealName env m = true := by
    rw [hsorted_eq]; exact topSortAll_sorted_real hwf sub
  have hclosed : ∀ m ∈ sorted, ∀ nm, lookupNode env m = some nm →
      ∀ q ∈ realParents env nm, q.name ∈ sorted := by
    rw [hsorted_eq]; exact topSortAll_parent_closed hwf sub
  constructor
  · intro i hi m hm q hq
    rcases (mem_layerBatches_iff hi).mp hm with ⟨hmsorted, hmdepth⟩
    have hmreal := hreal m hmsorted
    unfold isRealName at hmreal
    cases hlook : lookupNode env m with
    | none => rw [hlook] at hmreal; cases hmreal
    | some nm =>
        have hq' : q ∈ realParents env nm := by
          unfold realParentsOf at hq
          rw [hlook] at hq
          exact hq
        have hqsorted : q.name ∈ sorted := hclosed m hmsorted nm hlook q hq'
        have hqenv : q ∈ env := (realParents_elim hq').1
        have hqlook : lookupNode env q.name = some q :=
          lookupNode_self hwf.1 hqenv
        have hqd : depthOf env q.name = calculateDepth env (sortFuel env) q := by
          unfold depthOf; rw [hqlook]
        have hmd : depthOf env m = calculateDepth env (sortFuel env) nm := by
          unfold depthOf; rw [hlook]
        have hlt : depthOf env q.name < depthOf env m := by
          rw [hqd, hmd]
          exact calculateDepth_parent_lt hac (mem_of_lookupNode hlook) hq'
        have hj : depthOf env q.name < (layerBatches env sorted).length := by
          rw [layerBatches_length]
          have := @layerMax_ge env sorted q.name hqsorted
          omega
        refine ⟨depthOf env q.name, hj, by omega, ?_⟩
        exact (mem_layerBatches_iff hj).mpr ⟨hqsorted, rfl⟩
  · intro i hi m hm
    rcases (mem_layerBatches_iff hi).mp hm with ⟨hmsorted, hmdepth⟩
    have hmreal := hreal m hmsorted
    unfold isRealName at hmreal
    cases hlook : lookupNode env m with
    | none => rw [hlook] at hmreal; cases hmreal
    | some nm =>
        have hrp : realParentsOf env m = realParents env nm := by
          unfold realParentsOf; rw [hlook]
        have hmd : depthOf env m = calculateDepth env (sortFuel env) nm := by
          unfold depthOf; rw [hlook]
        rw [hrp]
        constructor
        · intro h0
          have := (calculateDepth_zero_iff (mem_of_lookupNode hlook)).mpr h0
          omega
        · intro h0
          apply (calculateDepth_zero_iff (mem_of_lookupNode hlook)).mp
          omega

/-- Chain graph `a → b` used as a concrete witness input. -/
def envAB : List Node := [plainNode "a" [] ["b"], plainNode "b" ["a"] []]

/-- Witness for C1: in `a → b`, node `b` sits in batch 1 and its parent
`a` sits in the earlier batch 0. -/
theorem startup_batches_respect_dependencies_witness :
    ∃ j, ∃ hj : j < ([["a"], ["b"]] : List (List String)).length, j < 1 ∧
      "a" ∈ ([["a"], ["b"]] : List (List String)).get ⟨j, hj⟩ := by
  have h := (startup_batches_respect_dependencies envAB ["a", "b"]
    (by decide)
    (parentAcyclic_of_rank envAB (fun s => if s = "b" then 1 else 0)
      (by decide))
    [[["a"], ["b"]]] rfl [["a"], ["b"]] (by simp)).1
  have hq : plainNode "a" [] ["b"] ∈ realParentsOf envAB "b" := by decide
  have := h 1 (by decide) "b" (by decide) (plainNode "a" [] ["b"]) hq
  exact this

end BatchOrdering

/-! ## Completeness of cycle detection (towards claim C2)

If `HasCycles` answers `false`, its DFS has assigned every reachable
node a finish position such that children finish strictly earlier; a
directed cycle would make that position decrease around a loop.  The
finish order is not stored by the Go code, so it appears here as ghost
data produced by the invariant proof. -/

section CycleComplete

variable {env : List Node}

/-- Ghost finish order (newest first): every finished node's children
appear strictly later in the list, i.e. finished strictly earlier. -/
def FinOrder (env : List Node) (F : List String) : Prop :=
  ∀ l₁ f l₂, F = l₁ ++ f :: l₂ → ∀ nf, lookupNode env f = some nf →
    ∀ c ∈ nf.Children, c ∈ l₂

structure FinInv (env : List Node) (st : CycState) (F : List String) : Prop where
  mem_iff : ∀ x, x ∈ st.visited ↔ x ∈ F ∨ x ∈ st.stack
  vnodup : st.visited.Nodup
  vsub : ∀ x ∈ st.visited, x ∈ envNames env
  stack_sub : ∀ x ∈ st.stack, x ∈ st.visited
  fdisj : ∀ x ∈ F, x ∉ st.stack
  fnodup : F.Nodup
  ford : FinOrder env F

lemma dfsCycle_succ (fuel : Nat) (name : String) (st : CycState) :
    dfsCycle env (fuel + 1) name st =
      if name ∈ st.stack then (true, { st with cyc := st.cyc ++ [name] })
      else if name ∈ st.visited then (false, st)
      else
        match lookupNode env name with
        | none => (false, st)
        | some n =>
            let st1 : CycState :=
              { st with visited := name :: st.visited, stack := name :: st.stack }
            let r := n.Children.foldl
              (fun (acc : Bool × CycState) c =>
                if acc.1 then acc else dfsCycle env fuel c acc.2)
              (false, st1)
            if r.1 then (true, { r.2 with cyc := r.2.cyc ++ [name] })
            else (false, { r.2 with stack := r.2.stack.erase name }) := rfl

lemma foldl_true_absorb (fuel : Nat) :
    ∀ (cs : List String) (acc : Bool × CycState), acc.1 = true →
      cs.foldl (fun (acc : Bool × CycState) c =>
        if acc.1 then acc else dfsCycle env fuel c acc.2) acc = acc := by
  intro cs
  induction cs with
  | nil => intro acc _; rfl
  | cons c cs ih =>
      intro acc hacc
      rw [List.foldl_cons, if_pos hacc]
      exact ih acc hacc

/-- Shape of the conclusions of the `false`-return specification. -/
def DfsFalseConcl (env : List Node) (st st' : CycState)
    (name : String) (F F' : List String) : Prop :=
  FinInv env st' F' ∧
  (∃ pre, F' = pre ++ F) ∧
  st'.stack = st.stack ∧
  (∀ x ∈ st.visited, x ∈ st'.visited) ∧
  name ∉ st.stack ∧
  (∀ nd, lookupNode env name = some nd → name ∈ st'.visited)

lemma dfsChildren_false_spec (fuel : Nat)
    (hsingle : ∀ name st F, FinInv env st F →
      env.length + 1 ≤ fuel + st.visited.length →
      (dfsCycle env fuel name st).1 = false →
      ∃ F', DfsFalseConcl env st (dfsCycle env fuel name st).2 name F F') :
    ∀ (cs : List String) (st : CycState) (F : List String),
      FinInv env st F → env.length + 1 ≤ fuel + st.visited.length →
      (cs.foldl (fun (acc : Bool × CycState) c =>
        if acc.1 then acc else dfsCycle env fuel c acc.2) (false, st)).1 = false →
      ∃ F',
        FinInv env (cs.foldl (fun (acc : Bool × CycState) c =>
          if acc.1 then acc else dfsCycle env fuel c acc.2) (false, st)).2 F' ∧
        (∃ pre, F' = pre ++ F) ∧
        (cs.foldl (fun (acc : Bool × CycState) c =>
          if acc.1 then acc else dfsCycle env fuel c acc.2) (false, st)).2.stack
          = st.stack ∧
        (∀ x ∈ st.visited, x ∈ (cs.foldl (fun (acc : Bool × CycState) c =>
          if acc.1 then acc else dfsCycle env fuel c acc.2) (false, st)).2.visited) ∧
        (∀ c ∈ cs, c ∉ st.stack ∧
          (∀ nd, lookupNode env c = some nd →
            c ∈ (cs.foldl (fun (acc : Bool × CycState) c =>
              if acc.1 then acc else dfsCycle env fuel c acc.2)
              (false, st)).2.visited)) := by
  intro cs
  induction cs with
  | nil =>
      intro st F hinv hfuel _
      exact ⟨F, hinv, ⟨[], rfl⟩, rfl, fun x hx => hx, by simp⟩
  | cons c cs ih =>
      intro st F hinv hfuel hres
      rw [List.foldl_cons] at hres ⊢
      simp only [Bool.false_eq_true, if_false] at hres ⊢
      rcases hstep : dfsCycle env fuel c st with ⟨b, st'⟩
      rw [hstep] at hres
      cases b with
      | true =>
          rw [foldl_true_absorb fuel cs (true, st') rfl] at hres
          cases hres
      | false =>
          have hsg := hsingle c st F hinv hfuel (by rw [hstep])
          rw [hstep] at hsg
          dsimp only at hsg
          rcases hsg with ⟨F₁, hinv₁, ⟨pre₁, hpre₁⟩, hstack₁, hmono₁, hcstack, hcvis⟩
          have hfuel₁ : env.length + 1 ≤ fuel + st'.visited.length := by
            have := length_le_of_nodup_subset hinv.vnodup
              (fun x hx => hmono₁ x hx)
            omega
          rcases ih st' F₁ hinv₁ hfuel₁ hres with
            ⟨F₂, hinv₂, ⟨pre₂, hpre₂⟩, hstack₂, hmono₂, hcs₂⟩
          refine ⟨F₂, hinv₂, ⟨pre₂ ++ pre₁, by simp [hpre₂, hpre₁]⟩,
            by rw [hstack₂, hstack₁], fun x hx => hmono₂ x (hmono₁ x hx), ?_⟩
          intro c' hc'
          rcases List.mem_cons.mp hc' with rfl | hc''
          · exact ⟨hcstack, fun nd hnd => hmono₂ c' (hcvis nd hnd)⟩
          · rcases hcs₂ c' hc'' with ⟨hs, hv⟩
            exact ⟨by rwa [hstack₁] at hs, hv⟩

theorem dfsCycle_false_spec (hwf : WF env) :
    ∀ (fuel : Nat) (name : String) (st : CycState) (F : List String),
      FinInv env st F → env.length + 1 ≤ fuel + st.visited.length →
      (dfsCycle env fuel name st).1 = false →
      ∃ F', DfsFalseConcl env st (dfsCycle env fuel name st).2 name F F' := by
  intro fuel
  induction fuel with
  | zero =>
      intro name st F hinv hfuel _
      exfalso
      have h1 : st.visited.length ≤ (envNames env).length :=
        length_le_of_nodup_subset hinv.vnodup hinv.vsub
      have h2 : (envNames env).length = env.length := by simp [envNames]
      omega
  | succ fuel ih =>
      intro name st F hinv hfuel hres
      rw [dfsCycle_succ] at hres ⊢
      by_cases hstk : name ∈ st.stack
      · rw [if_pos hstk] at hres; cases hres
      · rw [if_neg hstk] at hres ⊢
        by_cases hvis : name ∈ st.visited
        · rw [if_pos hvis] at hres ⊢
          exact ⟨F, hinv, ⟨[], rfl⟩, rfl, fun x hx => hx, hstk,
            fun _ _ => hvis⟩
        · rw [if_neg hvis] at hres ⊢
          cases hlook : lookupNode env name with
          | none =>
              exact ⟨F, hinv, ⟨[], rfl⟩, rfl, fun x hx => hx, hstk,
                fun nd hnd => by rw [hlook] at hnd; exact Option.noConfusion hnd⟩
          | some n =>
              rw [hlook] at hres
              simp only at hres ⊢
              set st1 : CycState :=
                { st with visited := name :: st.visited,
                          stack := name :: st.stack } with hst1
              have hnenv : n ∈ env := mem_of_lookupNode hlook
              have hname : name ∈ envNames env := by
                have := lookupNode_name hlook
                exact this ▸ name_mem_envNames hnenv
              have hnameF : name ∉ F := by
                intro hF
                exact hvis ((hinv.mem_iff name).mpr (Or.inl hF))
              have hinv1 : FinInv env st1 F :=
                { mem_iff := by
                    intro x
                    simp only [hst1, List.mem_cons]
                    rw [hinv.mem_iff x]
                    tauto
                  vnodup := List.nodup_cons.mpr ⟨hvis, hinv.vnodup⟩
                  vsub := by
                    intro x hx
                    rcases List.mem_cons.mp hx with rfl | hx'
                    · exact hname
                    · exact hinv.vsub x hx'
                  stack_sub := by
                    intro x hx
                    rcases List.mem_cons.mp hx with rfl | hx'
                    · exact List.mem_cons_self _ _
                    · exact List.mem_cons_of_mem _ (hinv.stack_sub x hx')
                  fdisj := by
                    intro x hxF
                    simp only [hst1, List.mem_cons]
                    push_neg
                    exact ⟨fun h => hnameF (h ▸ hxF), hinv.fdisj x hxF⟩
                  fnodup := hinv.fnodup
                  ford := hinv.ford }
              have hfuel1 : env.length + 1 ≤ fuel + st1.visited.length := by
                simp only [hst1, List.length_cons]
                omega
              rcases hr : n.Children.foldl
                  (fun (acc : Bool × CycState) c =>
                    if acc.1 then acc else dfsCycle env fuel c acc.2)
                  (false, st1) with ⟨rb, stf⟩
              rw [hr] at hres
              dsimp only at hres ⊢
              cases rb with
              | true =>
                  rw [if_pos rfl] at hres
                  exact absurd hres (by simp)
              | false =>
                  rw [if_neg Bool.false_ne_true] at hres ⊢
                  have hfold := dfsChildren_false_spec fuel ih
                    n.Children st1 F hinv1 hfuel1 (by rw [hr])
                  rw [hr] at hfold
                  dsimp only at hfold
                  rcases hfold with
                    ⟨F₁, hinvf, ⟨pre₁, hpre₁⟩, hstackf, hmonof, hchildren⟩
                  have hstackf' : stf.stack = name :: st.stack := by
                    rw [hstackf]
                  have herase : stf.stack.erase name = st.stack := by
                    rw [hstackf']
                    exact List.erase_cons_head _ _
                  have hnamef : name ∈ stf.visited :=
                    hmonof name (List.mem_cons_self _ _)
                  have hnameF₁ : name ∉ F₁ := by
                    intro hF
                    have := hinvf.fdisj name hF
                    rw [hstackf'] at this
                    exact this (List.mem_cons_self _ _)
                  have hchild_vis : ∀ c ∈ n.Children, c ∈ F₁ := by
                    intro c hc
                    rcases hchildren c hc with ⟨hcs, hcv⟩
                    rcases lookupNode_isSome_of_exists
                        (hwf.2.2 n hnenv c hc) with ⟨nd, hnd⟩
                    have hcvis : c ∈ stf.visited := hcv nd hnd
                    rcases (hinvf.mem_iff c).mp hcvis with hcf | hcstk
                    · exact hcf
                    · exact absurd (hstackf' ▸ hcstk) hcs
                  dsimp only
                  rw [herase]
                  refine ⟨name :: F₁, ?_, ⟨name :: pre₁, by simp [hpre₁]⟩,
                    rfl, ?_, hstk, ?_⟩
                  · refine
                      { mem_iff := ?_
                        vnodup := hinvf.vnodup
                        vsub := hinvf.vsub
                        stack_sub := ?_
                        fdisj := ?_
                        fnodup := List.nodup_cons.mpr ⟨hnameF₁, hinvf.fnodup⟩
                        ford := ?_ }
                    · intro x
                      show x ∈ stf.visited ↔ x ∈ name :: F₁ ∨ x ∈ st.stack
                      have h1 := hinvf.mem_iff x
                      rw [hstackf'] at h1
                      simp only [List.mem_cons] at h1 ⊢
                      rw [h1]
                      tauto
                    · intro x hx
                      show x ∈ stf.visited
                      have hx1 : x ∈ st.visited := hinv.stack_sub x hx
                      exact hmonof x (List.mem_cons_of_mem _ hx1)
                    · intro x hxF
                      show x ∉ st.stack
                      rcases List.mem_cons.mp hxF with rfl | hxF₁
                      · exact hstk
                      · have := hinvf.fdisj x hxF₁
                        rw [hstackf'] at this
                        intro h
                        exact this (List.mem_cons_of_mem _ h)
                    · intro l₁ f l₂ hsplit nf hnf c hc
                      cases l₁ with
                      | nil =>
                          simp only [List.nil_append, List.cons.injEq] at hsplit
                          rcases hsplit with ⟨rfl, rfl⟩
                          have : nf = n := by
                            rw [hlook] at hnf
                            exact (Option.some.inj hnf).symm
                          subst this
                          exact hchild_vis c hc
                      | cons y l₁' =>
                          simp only [List.cons_append, List.cons.injEq] at hsplit
                          rcases hsplit with ⟨rfl, hsplit'⟩
                          exact hinvf.ford l₁' f l₂ hsplit' nf hnf c hc
                  · intro x hx
                    exact hmonof x (List.mem_cons_of_mem _ hx)
                  · intro nd _
                    exact hnamef

lemma hasCycles_foldl_true_absorb :
    ∀ (d : List String) (acc : Bool × CycState), acc.1 = true →
      d.foldl (fun (acc : Bool × CycState) name =>
        if acc.1 then acc
        else if name ∈ acc.2.visited then acc
        else dfsCycle env (sortFuel env) name acc.2) acc = acc := by
  intro d
  induction d with
  | nil => intro acc _; rfl
  | cons x xs ih =>
      intro acc hacc
      rw [List.foldl_cons, if_pos hacc]
      exact ih acc hacc

lemma hasCycles_fold_spec (hwf : WF env) :
    ∀ (d : List String) (st : CycState) (F : List String),
      FinInv env st F → st.stack = [] →
      (d.foldl (fun (acc : Bool × CycState) name =>
        if acc.1 then acc
        else if name ∈ acc.2.visited then acc
        else dfsCycle env (sortFuel env) name acc.2) (false, st)).1 = false →
      ∃ F',
        FinInv env (d.foldl (fun (acc : Bool × CycState) name =>
          if acc.1 then acc
          else if name ∈ acc.2.visited then acc
          else dfsCycle env (sortFuel env) name acc.2) (false, st)).2 F' ∧
        (d.foldl (fun (acc : Bool × CycState) name =>
          if acc.1 then acc
          else if name ∈ acc.2.visited then acc
          else dfsCycle env (sortFuel env) name acc.2)
          (false, st)).2.stack = [] ∧
        (∀ y ∈ st.visited, y ∈ (d.foldl (fun (acc : Bool × CycState) name =>
          if acc.1 then acc
          else if name ∈ acc.2.visited then acc
          else dfsCycle env (sortFuel env) name acc.2)
          (false, st)).2.visited) ∧
        (∀ x ∈ d, ∀ nd, lookupNode env x = some nd →
          x ∈ (d.foldl (fun (acc : Bool × CycState) name =>
            if acc.1 then acc
            else if name ∈ acc.2.visited then acc
            else dfsCycle env (sortFuel env) name acc.2)
            (false, st)).2.visited) := by
  intro d
  induction d with
  | nil =>
      intro st F hinv hstack _
      exact ⟨F, hinv, hstack, fun y hy => hy, by simp⟩
  | cons x xs ih =>
      intro st F hinv hstack hres
      rw [List.foldl_cons] at hres ⊢
      simp only [Bool.false_eq_true, if_false] at hres ⊢
      by_cases hxv : x ∈ st.visited
      · rw [if_pos hxv] at hres ⊢
        rcases ih st F hinv hstack hres with ⟨F', hinv', hstack', hmono', hall⟩
        refine ⟨F', hinv', hstack', hmono', ?_⟩
        intro y hy nd hnd
        rcases List.mem_cons.mp hy with rfl | hy'
        · exact hmono' y hxv
        · exact hall y hy' nd hnd
      · rw [if_neg hxv] at hres ⊢
        have hfuel : env.length + 1 ≤ sortFuel env + st.visited.length := by
          simp [sortFuel]
        rcases hstep : dfsCycle env (sortFuel env) x st with ⟨b, st'⟩
        rw [hstep] at hres
        cases b with
        | true =>
            rw [@hasCycles_foldl_true_absorb env xs (true, st') rfl]
              at hres
            cases hres
        | false =>
            have hsg := dfsCycle_false_spec hwf (sortFuel env) x st F hinv
              hfuel (by rw [hstep])
            rw [hstep] at hsg
            dsimp only at hsg
            rcases hsg with ⟨F₁, hinv₁, _, hstack₁, hmono₁, _, hxvis⟩
            have hstack₁' : st'.stack = [] := by rw [hstack₁, hstack]
            rcases ih st' F₁ hinv₁ hstack₁' hres with
              ⟨F', hinv', hstack', hmono', hall⟩
            refine ⟨F', hinv', hstack', fun y hy => hmono' y (hmono₁ y hy), ?_⟩
            intro y hy nd hnd
            rcases List.mem_cons.mp hy with rfl | hy'
            · exact hmono' y (hxvis nd hnd)
            · exact hall y hy' nd hnd

lemma finOrder_path (hwf : WF env) {F : List String} (hford : FinOrder env F) :
    ∀ {k : Nat} {a b : String}, ChildPath env a b k →
      ∀ l₁ l₂, F = l₁ ++ a :: l₂ → b ∈ l₂ := by
  intro k a b hpath
  induction hpath with
  | single hstep =>
      intro l₁ l₂ hsplit
      rcases hstep with ⟨n, hn, rfl, hb⟩
      exact hford l₁ n.name l₂ hsplit n (lookupNode_self hwf.1 hn) _ hb
  | @cons a' m c' k' hstep _ ih =>
      intro l₁ l₂ hsplit
      have hm : m ∈ l₂ := by
        rcases hstep with ⟨n, hn, rfl, hb⟩
        exact hford l₁ n.name l₂ hsplit n (lookupNode_self hwf.1 hn) _ hb
      rcases List.append_of_mem hm with ⟨s, t, rfl⟩
      have : c' ∈ t := ih (l₁ ++ a' :: s) t (by simp [hsplit])
      exact List.mem_append.mpr (Or.inr (List.mem_cons_of_mem _ this))

lemma finOrder_no_cycle (hwf : WF env) {F : List String}
    (hnodup : F.Nodup) (hford : FinOrder env F)
    {x : String} {k : Nat} (hcyc : ChildPath env x x k) (hxF : x ∈ F) :
    False := by
  rcases List.append_of_mem hxF with ⟨l₁, l₂, rfl⟩
  have hx2 : x ∈ l₂ := finOrder_path hwf hford hcyc l₁ l₂ rfl
  have : (x :: l₂).Nodup := hnodup.of_append_right
  exact (List.nodup_cons.mp this).1 hx2

lemma childPath_first_node {a b : String} {k : Nat}
    (h : ChildPath env a b k) : ∃ n ∈ env, n.name = a := by
  cases h with
  | single hstep => rcases hstep with ⟨n, hn, rfl, _⟩; exact ⟨n, hn, rfl⟩
  | cons hstep _ => rcases hstep with ⟨n, hn, rfl, _⟩; exact ⟨n, hn, rfl⟩

/-- Completeness of `HasCycles`: any directed cycle through a node of
the graph is detected. -/
theorem hasCycles_complete (hwf : WF env) {dom : List String} {x : String}
    {k : Nat} (hx : x ∈ dom) (hcyc : ChildPath env x x k) :
    (HasCycles env dom).1 = true := by
  by_contra hfalse
  have hres : (HasCycles env dom).1 = false := by
    cases h : (HasCycles env dom).1 with
    | true => exact absurd h hfalse
    | false => rfl
  unfold HasCycles at hres
  rcases hr : (dom.foldl
    (fun (acc : Bool × CycState) name =>
      if acc.1 then acc
      else if name ∈ acc.2.visited then acc
      else dfsCycle env (sortFuel env) name acc.2)
    (false, ⟨[], [], []⟩)) with ⟨rb, stf⟩
  rw [hr] at hres
  dsimp only at hres
  cases rb with
  | true => rw [if_pos rfl] at hres; cases hres
  | false =>
      have hinv0 : FinInv env (⟨[], [], []⟩ : CycState) [] :=
        { mem_iff := by intro x; simp
          vnodup := List.nodup_nil
          vsub := by intro x hx; cases hx
          stack_sub := by intro x hx; cases hx
          fdisj := by intro x hx; cases hx
          fnodup := List.nodup_nil
          ford := by
            intro l₁ f l₂ hsplit
            exact absurd hsplit (by simp) }
      rcases hasCycles_fold_spec hwf dom ⟨[], [], []⟩ [] hinv0 rfl
        (by rw [hr]) with ⟨F', hinv', hstack', _, hall⟩
      rw [hr] at hinv' hstack' hall
      dsimp only at hinv' hstack' hall
      rcases childPath_first_node hcyc with ⟨n, hn, rfl⟩
      have hxvis : n.name ∈ stf.visited :=
        hall n.name hx n (lookupNode_self hwf.1 hn)
      have hxF : n.name ∈ F' := by
        rcases (hinv'.mem_iff n.name).mp hxvis with hF | hstk
        · exact hF
        · rw [hstack'] at hstk; cases hstk
      exact finOrder_no_cycle hwf hinv'.fnodup hinv'.ford hcyc hxF

end CycleComplete

/-! ## A cycle makes the whole component decomposition fail -/

section ComponentCycle

variable {env : List Node}

lemma findComponentLoop_mono :
    ∀ (fuel : Nat) (stack visited comp : List String),
      (∀ y ∈ comp, y ∈ (findComponentLoop env fuel stack visited comp).2) ∧
      (∀ y ∈ visited, y ∈ (findComponentLoop env fuel stack visited comp).1) := by
  intro fuel
  induction fuel with
  | zero => intro stack visited comp; exact ⟨fun y hy => hy, fun y hy => hy⟩
  | succ fuel ih =>
      intro stack visited comp
      cases stack with
      | nil => exact ⟨fun y hy => hy, fun y hy => hy⟩
      | cons name stack' =>
          unfold findComponentLoop
          cases hlook : lookupNode env name with
          | none => exact ih stack' visited comp
          | some n =>
              dsimp only
              by_cases hcond : name ∈ visited ∨ n.IsPlaceholder
              · rw [if_pos hcond]
                exact ih stack' visited comp
              · rw [if_neg hcond]
                rcases ih ((n.Parents.filter (fun s =>
                      decide (s ∉ visited) && isRealName env s) ++
                    n.Children.filter (fun s =>
                      decide (s ∉ visited) && isRealName env s)).reverse ++ stack')
                    (name :: visited) (comp ++ [name]) with ⟨h1, h2⟩
                refine ⟨fun y hy => h1 y (List.mem_append_left _ hy),
                  fun y hy => h2 y (List.mem_cons_of_mem _ hy)⟩

lemma findComponentLoop_new_in_comp :
    ∀ (fuel : Nat) (stack visited comp : List String) (y : String),
      y ∈ (findComponentLoop env fuel stack visited comp).1 → y ∉ visited →
      y ∈ (findComponentLoop env fuel stack visited comp).2 := by
  intro fuel
  induction fuel with
  | zero => intro stack visited comp y hy hny; exact absurd hy hny
  | succ fuel ih =>
      intro stack visited comp y hy hny
      cases stack with
      | nil => exact absurd hy hny
      | cons name stack' =>
          unfold findComponentLoop at hy ⊢
          cases hlook : lookupNode env name with
          | none =>
              rw [hlook] at hy
              exact ih stack' visited comp y hy hny
          | some n =>
              rw [hlook] at hy
              dsimp only at hy ⊢
              by_cases hcond : name ∈ visited ∨ n.IsPlaceholder
              · rw [if_pos hcond] at hy ⊢
                exact ih stack' visited comp y hy hny
              · rw [if_neg hcond] at hy ⊢
                by_cases hyn : y = name
                · subst hyn
                  exact (findComponentLoop_mono fuel _ _ _).1 y (by simp)
                · refine ih _ _ _ y hy ?_
                  simp only [List.mem_cons]
                  push_neg
                  exact ⟨hyn, hny⟩

lemma findComponent_start_mem {x : String} {visited : List String} {nx : Node}
    (hlook : lookupNode env x = some nx) (hph : nx.IsPlaceholder = false)
    (hvis : x ∉ visited) : x ∈ (findComponent env visited x).2 := by
  unfold findComponent
  obtain ⟨m, hm⟩ : ∃ m, componentFuel env = m + 1 :=
    ⟨componentFuel env - 1, by unfold componentFuel; omega⟩
  rw [hm]
  unfold findComponentLoop
  rw [hlook]
  dsimp only
  rw [if_neg (by simp [hvis, hph])]
  exact (findComponentLoop_mono m _ _ _).1 x (by simp)

lemma topologicalSort_cycle_error {dom : List String}
    (hc : (HasCycles env dom).1 = true) :
    TopologicalSort env dom = .error (GErr.cycle (HasCycles env dom).2) := by
  unfold TopologicalSort Validate
  rw [if_pos hc]

lemma getStartupBatches_cycle_error {sub : List String} (hwf : WF env)
    {x : String} {k : Nat} (hx : x ∈ sub) (hcyc : ChildPath env x x k) :
    ∃ ws, GetStartupBatches env sub = .error (GErr.cycle ws) := by
  have hc := hasCycles_complete hwf hx hcyc
  refine ⟨(HasCycles env sub).2, ?_⟩
  unfold GetStartupBatches
  rw [topologicalSort_cycle_error hc]
  rfl

lemma topSortAll_fold_mem (hwf : WF env) :
    ∀ (dom : List String) (st : VisitState), VisitPre env (sortFuel env) st →
      ∀ p ∈ dom, ∀ nd, lookupNode env p = some nd → nd.IsPlaceholder = false →
        p ∈ (List.foldl
          (fun st name =>
            match lookupNode env name with
            | none => st
            | some n =>
                if name ∉ st.visited ∧ ¬ n.IsPlaceholder then
                  visit env (sortFuel env) name st
                else st) st dom).visited := by
  intro dom
  induction dom with
  | nil => intro st _ p hp; cases hp
  | cons d ds ih =>
      intro st hpre p hp nd hndlook hndph
      rw [List.foldl_cons]
      rcases List.mem_cons.mp hp with rfl | hp'
      · rw [hndlook]
        dsimp only
        by_cases hv : p ∈ st.visited
        · rw [if_neg (by simp [hv])]
          have hpost := topSortAll_fold hwf ds st hpre
          exact hpost.mono p hv
        · rw [if_pos (by simp [hv, hndph])]
          have h1 := visit_spec hwf (sortFuel env) p st hpre
          have hvis : p ∈ (visit env (sortFuel env) p st).visited :=
            h1.2 nd hndlook
          have hpre1 := visitPre_of_post hpre h1.1
          have hpost := topSortAll_fold hwf ds _ hpre1
          exact hpost.mono p hvis
      · cases hlook : lookupNode env d with
        | none => exact ih st hpre p hp' nd hndlook hndph
        | some n =>
            simp only
            by_cases hc : d ∉ st.visited ∧ ¬ n.IsPlaceholder
            · rw [if_pos hc]
              have h1 := (visit_spec hwf (sortFuel env) d st hpre).1
              exact ih _ (visitPre_of_post hpre h1) p hp' nd hndlook hndph
            · rw [if_neg hc]
              exact ih st hpre p hp' nd hndlook hndph

lemma topSortAll_dom_mem_sorted (hwf : WF env) {dom : List String} {y : String}
    (hy : y ∈ dom) {ny : Node} (hlooky : lookupNode env y = some ny)
    (hph : ny.IsPlaceholder = false) :
    y ∈ (topSortAll env dom).sorted := by
  have hvis : y ∈ (topSortAll env dom).visited := by
    unfold topSortAll
    exact topSortAll_fold_mem hwf dom ⟨[], []⟩ visitPre_init y hy ny hlooky hph
  have hpost := topSortAll_post hwf dom
  refine hpost.new_real_emitted y hvis (by simp) ?_
  unfold isRealName
  rw [hlooky]
  simp [hph]

/-- Whatever error `GetStartupBatches` produces on a component that
contains a real node is a cycle error ("no containers to sort" cannot
arise). -/
lemma getStartupBatches_error_shape (hwf : WF env) {sub : List String}
    {y : String} (hy : y ∈ sub) {ny : Node}
    (hlooky : lookupNode env y = some ny) (hph : ny.IsPlaceholder = false)
    {e : GErr} (herr : GetStartupBatches env sub = .error e) :
    ∃ ws, e = GErr.cycle ws := by
  unfold GetStartupBatches TopologicalSort Validate at herr
  cases hc : (HasCycles env sub).1 with
  | true =>
      rw [if_pos hc] at herr
      exact ⟨(HasCycles env sub).2, by
        simpa using ((Except.error.injEq _ _).mp herr).symm⟩
  | false =>
      rw [if_neg (by simp [hc])] at herr
      have hmem := topSortAll_dom_mem_sorted hwf hy hlooky hph
      have hne : (topSortAll env sub).sorted.length ≠ 0 := by
        intro h0
        rw [List.length_eq_zero.mp h0] at hmem
        cases hmem
      rw [if_neg hne] at herr
      cases herr

lemma gcc_foldl_error :
    ∀ (d : List String)
      (acc : Except GErr (List (List (List String))) × List String)
      (e : GErr), acc.1 = .error e →
      (d.foldl (gccStep env) acc).1 = .error e := by
  intro d
  induction d with
  | nil => intro acc e he; exact he
  | cons y ys ih =>
      intro acc e he
      rw [List.foldl_cons]
      have hstep : gccStep env acc y = acc := by
        rcases acc with ⟨accE, accV⟩
        cases accE with
        | error e' => rfl
        | ok c => cases he
      rw [hstep]
      exact ih acc e he

lemma gccStep_none {c₀ : List (List (List String))} {accV : List String}
    {name : String} (hlook : lookupNode env name = none) :
    gccStep env (.ok c₀, accV) name = (.ok c₀, accV) := by
  unfold gccStep
  rw [hlook]

lemma gccStep_some {c₀ : List (List (List String))} {accV : List String}
    {name : String} {n : Node} (hlook : lookupNode env name = some n) :
    gccStep env (.ok c₀, accV) name =
      if name ∈ accV ∨ n.IsPlaceholder then (.ok c₀, accV)
      else if (findComponent env accV name).2.length > 0 then
        match getBatchesForComponent env (findComponent env accV name).2 with
        | .error e => (.error e, (findComponent env accV name).1)
        | .ok batches =>
            (.ok (c₀ ++ [batches]), (findComponent env accV name).1)
      else (.ok c₀, (findComponent env accV name).1) := by
  unfold gccStep
  rw [hlook]

lemma gcc_cycle_fold (hwf : WF env) {x : String} {k : Nat}
    (hcyc : ChildPath env x x k) {nx : Node}
    (hlookx : lookupNode env x = some nx) (hphx : nx.IsPlaceholder = false) :
    ∀ (d : List String)
      (acc : Except GErr (List (List (List String))) × List String)
      (comps₀ : List (List (List String))),
      acc.1 = .ok comps₀ → x ∈ d → x ∉ acc.2 →
      ∃ ws, (d.foldl (gccStep env) acc).1 = .error (GErr.cycle ws) := by
  intro d
  induction d with
  | nil => intro acc comps₀ _ hx _; cases hx
  | cons y ys ih =>
      intro acc comps₀ hok hx hxv
      rw [List.foldl_cons]
      rcases acc with ⟨accE, accV⟩
      cases accE with
      | error e => cases hok
      | ok c₀ =>
          have hxv' : x ∉ accV := hxv
          by_cases hxy : x = y
          · subst hxy
            have hxcomp : x ∈ (findComponent env accV x).2 :=
              findComponent_start_mem hlookx hphx hxv'
            have hlen : (findComponent env accV x).2.length > 0 :=
              List.length_pos.mpr (List.ne_nil_of_mem hxcomp)
            rcases getStartupBatches_cycle_error hwf hxcomp hcyc with ⟨ws, hws⟩
            have hb : getBatchesForComponent env (findComponent env accV x).2
                = .error (GErr.cycle ws) := hws
            rw [gccStep_some hlookx, if_neg (by simp [hxv', hphx]),
              if_pos hlen, hb]
            exact ⟨ws, gcc_foldl_error ys _ _ rfl⟩
          · have hx' : x ∈ ys := by
              rcases List.mem_cons.mp hx with h | h
              · exact absurd h hxy
              · exact h
            cases hlooky : lookupNode env y with
            | none =>
                rw [gccStep_none hlooky]
                exact ih (.ok c₀, accV) c₀ rfl hx' hxv'
            | some n =>
                rw [gccStep_some hlooky]
                by_cases hcond : y ∈ accV ∨ n.IsPlaceholder
                · rw [if_pos hcond]
                  exact ih (.ok c₀, accV) c₀ rfl hx' hxv'
                · rw [if_neg hcond]
                  push_neg at hcond
                  have hyv : y ∉ accV := hcond.1
                  have hyph : n.IsPlaceholder = false := by
                    have := hcond.2
                    simpa using this
                  by_cases hxfc : x ∈ (findComponent env accV y).1
                  · -- x was swept into y's component, which then errors
                    have hxcomp : x ∈ (findComponent env accV y).2 :=
                      findComponentLoop_new_in_comp _ _ _ _ x hxfc hxv'
                    have hlen : (findComponent env accV y).2.length > 0 :=
                      List.length_pos.mpr (List.ne_nil_of_mem hxcomp)
                    rcases getStartupBatches_cycle_error hwf hxcomp hcyc with
                      ⟨ws, hws⟩
                    have hb : getBatchesForComponent env
                        (findComponent env accV y).2
                        = .error (GErr.cycle ws) := hws
                    rw [if_pos hlen, hb]
                    exact ⟨ws, gcc_foldl_error ys _ _ rfl⟩
                  · by_cases hlen : (findComponent env accV y).2.length > 0
                    · rw [if_pos hlen]
                      cases hb : getBatchesForComponent env
                          (findComponent env accV y).2 with
                      | error e =>
                          have hycomp : y ∈ (findComponent env accV y).2 :=
                            findComponent_start_mem hlooky hyph hyv
                          rcases getStartupBatches_error_shape hwf hycomp
                            hlooky hyph hb with ⟨ws, rfl⟩
                          exact ⟨ws, gcc_foldl_error ys _ _ rfl⟩
                      | ok batches =>
                          exact ih (.ok (c₀ ++ [batches]),
                            (findComponent env accV y).1) _ rfl hx' hxfc
                    · rw [if_neg hlen]
                      exact ih (.ok c₀, (findComponent env accV y).1) c₀ rfl
                        hx' hxfc

/-- A directed cycle through a real node of the graph makes
`GetConnectedComponents` (hence both orchestration directions) return a
cycle error. -/
theorem gcc_cycle_error (hwf : WF env) {dom : List String} {x : String}
    {k : Nat} (hx : x ∈ dom) {nx : Node}
    (hlookx : lookupNode env x = some nx) (hphx : nx.IsPlaceholder = false)
    (hcyc : ChildPath env x x k) :
    ∃ ws, GetConnectedComponents env dom = .error (GErr.cycle ws) ∧
      GetConnectedComponentsForShutdown env dom = .error (GErr.cycle ws) := by
  rcases gcc_cycle_fold hwf hcyc hlookx hphx dom (.ok [], []) [] rfl hx
    (by simp) with ⟨ws, hws⟩
  refine ⟨ws, hws, ?_⟩
  unfold GetConnectedComponentsForShutdown
  rw [show GetConnectedComponents env dom = .error (GErr.cycle ws) from hws]
  rfl

end ComponentCycle

/-! ## Docker daemon oracle and graph builder (`internal/docker`,
`internal/graph/builder.go`)

The Docker client is replaced by a pure oracle recording what each call
would return; real I/O, contexts and deadlines are outside the model.
`container.Summary` keeps the fields the builder reads. -/

structure ConfigRes where
  StopTimeout : Option Int
  deriving Repr, DecidableEq

/-- `client.ContainerInspectResult`, reduced to the read field. -/
structure InspectRes where
  Config : Option ConfigRes
  deriving Repr, DecidableEq

structure Summary where
  ID : String
  Names : List String
  State : String
  Labels : String → Option String

structure Daemon where
  ListManagedContainers : Except String (List Summary)
  GetContainer : String → Except String InspectRes
  IsContainerRunning : String → Except String Bool
  StartContainer : String → Except String Unit
  StopContainer : String → Int → Except String Unit

/-- Strip one leading `/` from a daemon-reported container name
(`name[0] == '/'` then `name[1:]`). -/
def stripSlash (nm : String) : String :=
  match nm.data with
  | '/' :: rest => String.mk rest
  | _ => nm

/-- The first daemon-reported name of a container (`summary.Names[0]`;
the daemon always returns at least one name). -/
def headName (s : Summary) : String :=
  match s.Names with
  | [] => ""
  | nm :: _ => nm

/-- `graph.NewNode` (the unused `Labels` copy on the node is not
modelled; the builder reads labels from the summary). -/
def NewNode (s : Summary) : Node :=
  { ID := s.ID
    name := stripSlash (headName s)
    IsRunning := s.State = "running"
    IsPlaceholder := false
    Parents := []
    Children := []
    StartupDelay := 0
    WaitForHealthcheck := false
    StopTimeout := none }

/-- `graph.Nodes[node.Name] = node`: map insert keyed by name. -/
def insertNode (env : List Node) (n : Node) : List Node :=
  if env.any (fun m => m.name = n.name) then
    env.map (fun m => if m.name = n.name then n else m)
  else env ++ [n]

/-- First pass of `(*Builder).Build`: create a node for each managed
container, fetching its configured stop timeout (an inspect failure
just leaves it unset). -/
def buildNodePass (d : Daemon) (cs : List Summary) : List Node :=
  cs.foldl
    (fun env c =>
      let labels := ParseLabels c.Labels
      if ¬ labels.IsManaged then env
      else
        let node := NewNode c
        let node := { node with
          StartupDelay := labels.GetStartupDelay
          WaitForHealthcheck := labels.ShouldWaitForHealthcheck }
        let node :=
          match d.GetContainer c.ID with
          | .error _ => node
          | .ok info =>
              match info.Config with
              | some cfg => { node with StopTimeout := cfg.StopTimeout }
              | none => node
        insertNode env node) []

/-- `(*Node).AddParent` by name: append the parent to the child's
`Parents` and the child to the parent's `Children` (a self-dependency
updates both lists of the same node). -/
def addParentEdge (env : List Node) (childName parentName : String) :
    List Node :=
  env.map (fun m =>
    if m.name = childName ∧ m.name = parentName then
      { m with Parents := m.Parents ++ [parentName],
               Children := m.Children ++ [childName] }
    else if m.name = childName then
      { m with Parents := m.Parents ++ [parentName] }
    else if m.name = parentName then
      { m with Children := m.Children ++ [childName] }
    else m)

/-- Second pass of `(*Builder).Build`: add dependency edges, creating a
placeholder node for each unresolved dependency name. -/
def edgeStep (env : List Node) (c : Summary) : List Node :=
  let name := stripSlash (headName c)
  match lookupNode env name with
  | none => env
  | some _ =>
      (ParseLabels c.Labels).GetDependencies.foldl
        (fun env dep =>
          let env :=
            if (lookupNode env dep).isSome then env
            else env ++ [NewPlaceholderNode dep]
          addParentEdge env name dep) env

/-- `(*Builder).Build` (it never returns a non-nil error). -/
def Build (d : Daemon) (cs : List Summary) : List Node :=
  cs.foldl edgeStep (buildNodePass d cs)

/-! ## Orchestrator executor (`internal/orchestrator/orchestrator.go`)

The per-component goroutines, batch barriers and result channels are
modelled by the sequential schedule that walks components, batches and
nodes in list order; result lists collect in that admissible order.
Health-check gating and the startup delay never affect a node's
outcome (`waitForHealthy` warns and continues on every path short of
context cancellation, which is wall-clock behaviour outside the model),
so they contribute no trace. The trace records every start/stop call
issued to the daemon, including failed ones. -/

inductive DockerAction where
  | start (id : String)
  | stop (id : String) (timeout : Int)
  deriving Repr, DecidableEq

structure StartContainersOptions where
  Timeout : Int
  Ignore : List String

structure StopContainersOptions where
  Timeout : Int
  Ignore : List String

structure StartResult where
  Started : List String
  Skipped : List String
  Failed : List String
  deriving Repr, DecidableEq

structure StopResult where
  Stopped : List String
  Skipped : List String
  Failed : List String
  deriving Repr, DecidableEq

/-- `(*Orchestrator).startContainer`. -/
def startContainer (d : Daemon) (n : Node) :
    List DockerAction × Except String Unit :=
  match d.IsContainerRunning n.name with
  | .error e => ([], .error ("failed to check container status: " ++ e))
  | .ok true => ([], .ok ())
  | .ok false =>
      match d.StartContainer n.ID with
      | .error e =>
          ([DockerAction.start n.ID], .error ("failed to start container: " ++ e))
      | .ok _ => ([DockerAction.start n.ID], .ok ())

/-- `(*Orchestrator).stopContainer` (Docker default of 10s when the
container has no configured stop timeout). -/
def stopContainer (d : Daemon) (n : Node) :
    List DockerAction × Except String Unit :=
  match d.IsContainerRunning n.name with
  | .error e => ([], .error ("failed to check container status: " ++ e))
  | .ok false => ([], .ok ())
  | .ok true =>
      let timeout := match n.StopTimeout with | some t => t | none => 10
      match d.StopContainer n.ID timeout with
      | .error e =>
          ([DockerAction.stop n.ID timeout],
            .error ("failed to stop container: " ++ e))
      | .ok _ => ([DockerAction.stop n.ID timeout], .ok ())

/-- The per-node body of the start fan-out. -/
def runStartNode (d : Daemon) (env : List Node) (ignore : List String)
    (name : String) : List DockerAction × StartResult :=
  match lookupNode env name with
  | none => ([], ⟨[], [], []⟩)
  | some n =>
      if name ∈ ignore then ([], ⟨[], [name], []⟩)
      else
        match startContainer d n with
        | (tr, .error _) => (tr, ⟨[], [], [name]⟩)
        | (tr, .ok _) => (tr, ⟨[name], [], []⟩)

/-- The per-node body of the stop fan-out. -/
def runStopNode (d : Daemon) (env : List Node) (ignore : List String)
    (name : String) : List DockerAction × StopResult :=
  match lookupNode env name with
  | none => ([], ⟨[], [], []⟩)
  | some n =>
      if name ∈ ignore then ([], ⟨[], [name], []⟩)
      else
        match stopContainer d n with
        | (tr, .error _) => (tr, ⟨[], [], [name]⟩)
        | (tr, .ok _) => (tr, ⟨[name], [], []⟩)

def appendStart (a b : StartResult) : StartResult :=
  ⟨a.Started ++ b.Started, a.Skipped ++ b.Skipped, a.Failed ++ b.Failed⟩

def appendStop (a b : StopResult) : StopResult :=
  ⟨a.Stopped ++ b.Stopped, a.Skipped ++ b.Skipped, a.Failed ++ b.Failed⟩

/-- Batches in series, nodes of a batch joined at the batch barrier. -/
def runStartComponent (d : Daemon) (env : List Node) (ignore : List String)
    (comp : List (List String)) : List DockerAction × StartResult :=
  comp.foldl
    (fun acc batch =>
      batch.foldl
        (fun acc name =>
          let r := runStartNode d env ignore name
          (acc.1 ++ r.1, appendStart acc.2 r.2)) acc)
    ([], ⟨[], [], []⟩)

def runStopComponent (d : Daemon) (env : List Node) (ignore : List String)
    (comp : List (List String)) : List DockerAction × StopResult :=
  comp.foldl
    (fun acc batch =>
      batch.foldl
        (fun acc name =>
          let r := runStopNode d env ignore name
          (acc.1 ++ r.1, appendStop acc.2 r.2)) acc)
    ([], ⟨[], [], []⟩)

/-- `(*Orchestrator).StartContainers`: list, build, decompose into
components, then run them (components in list order in this sequential
schedule).  The `Timeout` option only feeds the context deadline and is
outside the pure model. -/
def StartContainers (d : Daemon) (opts : StartContainersOptions) :
    List DockerAction × Except GErr StartResult :=
  match d.ListManagedContainers with
  | .error e => ([], .error (GErr.listFailed e))
  | .ok cs =>
      let env := Build d cs
      match GetConnectedComponents env (envNames env) with
      | .error e => ([], .error e)
      | .ok comps =>
          let r := comps.foldl
            (fun acc comp =>
              let rc := runStartComponent d env opts.Ignore comp
              (acc.1 ++ rc.1, appendStart acc.2 rc.2))
            ([], ⟨[], [], []⟩)
          (r.1, .ok r.2)

/-- `(*Orchestrator).StopContainers`, over the shutdown decomposition. -/
def StopContainers (d : Daemon) (opts : StopContainersOptions) :
    List DockerAction × Except GErr StopResult :=
  match d.ListManagedContainers with
  | .error e => ([], .error (GErr.listFailed e))
  | .ok cs =>
      let env := Build d cs
      match GetConnectedComponentsForShutdown env (envNames env) with
      | .error e => ([], .error e)
      | .ok comps =>
          let r := comps.foldl
            (fun acc comp =>
              let rc := runStopComponent d env opts.Ignore comp
              (acc.1 ++ rc.1, appendStop acc.2 rc.2))
            ([], ⟨[], [], []⟩)
          (r.1, .ok r.2)

/-! ## Jobs (`internal/jobs/types.go`, `internal/jobs/manager.go`)

Wall-clock timestamps (`StartedAt`/`EndedAt` latching, durations) are
outside the pure model; `CreatedAt` is kept as integer seconds because
the retention policy reads it.  `Clone` is the identity on this
immutable model, so clone-isolation is not a statable claim here and is
not treated. -/

inductive JobType where
  | start
  | stop
  deriving Repr, DecidableEq

inductive JobStatus where
  | pending
  | running
  | completed
  | failed
  deriving Repr, DecidableEq

structure Job where
  ID : String
  /-- `Type` in Go (`Type` is a Lean keyword). -/
  JType : JobType
  Status : JobStatus
  CreatedAt : Int
  Timeout : Int
  Ignore : List String
  Started : List String
  Stopped : List String
  Skipped : List String
  Failed : List String
  Error : String
  deriving Repr, DecidableEq

/-- `jobs.NewJob`; the fresh UUID and `time.Now()` are oracle inputs. -/
def NewJob (id : String) (jobType : JobType) (createdAt : Int)
    (timeout : Int) (ignore : List String) : Job :=
  { ID := id
    JType := jobType
    Status := .pending
    CreatedAt := createdAt
    Timeout := timeout
    Ignore := ignore
    Started := []
    Stopped := []
    Skipped := []
    Failed := []
    Error := "" }

/-- `(*Job).SetStatus` (timestamp latching is wall-clock, unmodelled). -/
def SetStatus (j : Job) (s : JobStatus) : Job :=
  { j with Status := s }

/-- `(*Job).SetError`: record the message and mark the job failed. -/
def SetError (j : Job) (e : String) : Job :=
  { j with Error := e, Status := .failed }

/-- `(*Job).SetResults`: `nil` slices (here `none`) leave the field. -/
def SetResults (j : Job)
    (started stopped skipped failed : Option (List String)) : Job :=
  let j := match started with | some l => { j with Started := l } | none => j
  let j := match stopped with | some l => { j with Stopped := l } | none => j
  let j := match skipped with | some l => { j with Skipped := l } | none => j
  match failed with | some l => { j with Failed := l } | none => j

/-- Go `%v` rendering of a `[]string`, as it appears inside error
messages. -/
def goFormatStrings (ws : List String) : String :=
  "[" ++ String.intercalate " " ws ++ "]"

/-- The error string a failed orchestrator call hands `SetError`
(`fmt.Errorf` wrapping in `StartContainers`/`StopContainers` around the
graph errors). -/
def orchErrString : GErr → String
  | GErr.cycle ws =>
      "failed to identify connected components: " ++
        "circular dependency detected: " ++ goFormatStrings ws
  | GErr.noContainers =>
      "failed to identify connected components: no containers to sort"
  | GErr.listFailed msg => "failed to list containers: " ++ msg

/-- `(*Manager).processStartJob`. -/
def processStartJob (d : Daemon) (job : Job) : Job :=
  match (StartContainers d ⟨job.Timeout, job.Ignore⟩).2 with
  | .error e => SetError job (orchErrString e)
  | .ok res =>
      SetStatus
        (SetResults job (some res.Started) none (some res.Skipped)
          (some res.Failed)) .completed

/-- `(*Manager).processStopJob`. -/
def processStopJob (d : Daemon) (job : Job) : Job :=
  match (StopContainers d ⟨job.Timeout, job.Ignore⟩).2 with
  | .error e => SetError job (orchErrString e)
  | .ok res =>
      SetStatus
        (SetResults job none (some res.Stopped) (some res.Skipped)
          (some res.Failed)) .completed

/-- `(*Manager).processJob` (the "unknown job type" default is
unreachable with the two-constructor type). -/
def processJob (d : Daemon) (job : Job) : Job :=
  let job := SetStatus job .running
  match job.JType with
  | .start => processStartJob d job
  | .stop => processStopJob d job

/-! ## Retention cleanup (`internal/jobs/manager.go`, `cleanup`)

The registry map is an association list keyed by job id (Go map
iteration order being arbitrary, statements quantify over the list
order); `time.Now()` is the `now` argument in seconds. -/

def MinJobRetention : Int := 3600

def MaxJobCount : Nat := 1000

structure JobAge where
  id : String
  age : Int
  deriving Repr, DecidableEq

/-- The eligibility sweep of `cleanup`: terminal and older than the
retention window. -/
def eligibleOf (now : Int) (jobs : List (String × Job)) : List JobAge :=
  jobs.foldl
    (fun acc p =>
      let status := p.2.Status
      if status = JobStatus.completed ∨ status = JobStatus.failed then
        let age := now - p.2.CreatedAt
        if age > MinJobRetention then acc ++ [⟨p.1, age⟩] else acc
      else acc) []

def ageAt (arr : List JobAge) (k : Nat) : Int :=
  (arr.getD k ⟨"", 0⟩).age

/-- One conditional swap of the in-place sort (`List.set` out of bounds
is the identity, matching the loop guards that keep indices in
bounds). -/
def swapIfOlder (arr : List JobAge) (i j : Nat) : List JobAge :=
  if ageAt arr j > ageAt arr i then
    (arr.set i (arr.getD j ⟨"", 0⟩)).set j (arr.getD i ⟨"", 0⟩)
  else arr

/-- The inner `for j := i+1; j < len(eligible); j++` loop.  The fuel is
the number of remaining iterations; callers pass `arr.length`, which is
adequate since `j` only increases and the swaps preserve length. -/
def sortInner (i : Nat) : Nat → Nat → List JobAge → List JobAge
  | _, 0, arr => arr
  | j, fuel + 1, arr =>
      if j < arr.length then sortInner i (j + 1) fuel (swapIfOlder arr i j)
      else arr

/-- The outer `for i := 0; i < len(eligible); i++` loop. -/
def sortOuter : Nat → Nat → List JobAge → List JobAge
  | _, 0, arr => arr
  | i, fuel + 1, arr =>
      if i < arr.length then
        sortOuter (i + 1) fuel (sortInner i (i + 1) arr.length arr)
      else arr

/-- The age sort of `cleanup` (oldest first, by repeated swaps). -/
def sortEligible (arr : List JobAge) : List JobAge :=
  sortOuter 0 arr.length arr

/-- `(*Manager).cleanup`. -/
def cleanup (now : Int) (jobs : List (String × Job)) :
    List (String × Job) :=
  let totalJobs := jobs.length
  if totalJobs = 0 then jobs
  else
    let eligible := eligibleOf now jobs
    if eligible.length = 0 ∧ totalJobs ≤ MaxJobCount then jobs
    else if totalJobs > MaxJobCount then
      let sorted := sortEligible eligible
      let toRemove := min (totalJobs - MaxJobCount) sorted.length
      let victims := (sorted.take toRemove).map JobAge.id
      jobs.filter (fun p => p.1 ∉ victims)
    else if eligible.length > 0 then
      let victims := eligible.map JobAge.id
      jobs.filter (fun p => p.1 ∉ victims)
    else jobs

/-! ## HTTP control plane (`internal/api/handlers.go`)

A request carries the raw query values (`Query().Get` reads the first
value or `""`; `query["ignore"]` reads them all).  Responses are the
status code and the structured payload `writeJSON` would encode.  The
block auto-expiry timer is wall-clock behaviour outside the model; the
handlers' flag reads/writes are modelled directly. -/

structure HttpRequest where
  timeoutParams : List String
  ignoreParams : List String

inductive ApiBody where
  | jobIdB (id : String)
  | errorB (msg : String)
  | messageB (msg : String)
  | statusB (s : String)
  deriving Repr, DecidableEq

structure ServerState where
  isBlocked : Bool
  jobs : List (String × Job)

def queryGetFirst (params : List String) : String :=
  match params with
  | [] => ""
  | v :: _ => v

/-- `timeout := default; if s != "" && Atoi ok { timeout = parsed }`. -/
def parseTimeout (dflt : Int) (params : List String) : Int :=
  let timeoutStr := queryGetFirst params
  if timeoutStr ≠ "" then
    match goAtoi timeoutStr with
    | some t => t
    | none => dflt
  else dflt

def statusString : JobStatus → String
  | .pending => "pending"
  | .running => "running"
  | .completed => "completed"
  | .failed => "failed"

/-- `HandleStartContainers`.  Note: it parses only `timeout`; the
`ignore` query parameter is never read and the job is submitted with a
nil ignore list. -/
def HandleStartContainers (st : ServerState) (newId : String) (now : Int)
    (req : HttpRequest) : ServerState × Nat × ApiBody :=
  if st.isBlocked then (st, 503, .errorB "Operation blocked")
  else
    let timeout := parseTimeout 600 req.timeoutParams
    let job := NewJob newId .start now timeout []
    ({ st with jobs := st.jobs ++ [(job.ID, job)] }, 200, .jobIdB job.ID)

/-- `HandleStopContainers`: parses `timeout` (default 300) and the
`ignore` values (repeated parameters, comma-split, trimmed, empties
dropped). -/
def HandleStopContainers (st : ServerState) (newId : String) (now : Int)
    (req : HttpRequest) : ServerState × Nat × ApiBody :=
  if st.isBlocked then (st, 503, .errorB "Operation blocked")
  else
    let timeout := parseTimeout 300 req.timeoutParams
    let ignore := req.ignoreParams.foldl trimSplitAppend []
    let job := NewJob newId .stop now timeout ignore
    ({ st with jobs := st.jobs ++ [(job.ID, job)] }, 200, .jobIdB job.ID)

/-- `HandleGetJobStatus` (`(*Manager).Get` clones; the model is
immutable so the lookup result is returned directly). -/
def HandleGetJobStatus (st : ServerState) (jobID : String) :
    Nat × ApiBody :=
  match st.jobs.find? (fun p => p.1 = jobID) with
  | none => (404, .statusB "not_found")
  | some p => (200, .statusB (statusString p.2.Status))

/-- `HandleHealth` (`GET /ping`). -/
def HandleHealth (st : ServerState) : Nat × ApiBody :=
  (200, .statusB "healthy")

/-- `HandleBlock` (the auto-unblock goroutine is a wall-clock timer,
outside the model; its cancellation bookkeeping carries no observable
state here). -/
def HandleBlock (st : ServerState) (durationParam : String) :
    ServerState × Nat × ApiBody :=
  let duration : Int :=
    if durationParam ≠ "" then
      match goAtoi durationParam with
      | some v => v
      | none => 10
    else 10
  ({ st with isBlocked := true }, 200,
    .messageB ("Operations are now blocked for " ++ toString duration ++
      " minutes"))

/-- `HandleUnblock`. -/
def HandleUnblock (st : ServerState) : ServerState × Nat × ApiBody :=
  ({ st with isBlocked := false }, 200,
    .messageB "Operations are now unblocked")

/-! ## Claim C2: cycles abort the job before any container action -/

section CycleClaim

lemma startContainers_gcc_error {d : Daemon} {cs : List Summary} {e : GErr}
    (hlist : d.ListManagedContainers = .ok cs)
    (hgcc : GetConnectedComponents (Build d cs) (envNames (Build d cs))
      = .error e)
    (opts : StartContainersOptions) :
    StartContainers d opts = ([], .error e) := by
  unfold StartContainers
  rw [hlist]
  dsimp only
  rw [hgcc]

lemma stopContainers_gcc_error {d : Daemon} {cs : List Summary} {e : GErr}
    (hlist : d.ListManagedContainers = .ok cs)
    (hgcc : GetConnectedComponentsForShutdown (Build d cs)
      (envNames (Build d cs)) = .error e)
    (opts : StopContainersOptions) :
    StopContainers d opts = ([], .error e) := by
  unfold StopContainers
  rw [hlist]
  dsimp only
  rw [hgcc]

/-- Claim C2: if the graph built from the daemon's containers has a
directed cycle (through a real node — built graphs only route edges
through real nodes into cycles), both executor entry points return a
cycle error with an empty action trace (no start or stop was issued),
and processing either job kind marks the job Failed with the cycle
witness rendered in its error string. -/
theorem cycle_rejected_before_any_action
    (d : Daemon) (cs : List Summary)
    (hlist : d.ListManagedContainers = .ok cs)
    (hwf : WF (Build d cs))
    (x : String) (nx : Node) (k : Nat)
    (hlookx : lookupNode (Build d cs) x = some nx)
    (hphx : nx.IsPlaceholder = false)
    (hcyc : ChildPath (Build d cs) x x k)
    (startJob stopJob : Job)
    (hst : startJob.JType = .start) (hsp : stopJob.JType = .stop) :
    ∃ ws,
      StartContainers d ⟨startJob.Timeout, startJob.Ignore⟩
        = ([], .error (GErr.cycle ws)) ∧
      StopContainers d ⟨stopJob.Timeout, stopJob.Ignore⟩
        = ([], .error (GErr.cycle ws)) ∧
      (processJob d startJob).Status = .failed ∧
      (processJob d startJob).Error
        = "failed to identify connected components: " ++
            "circular dependency detected: " ++ goFormatStrings ws ∧
      (processJob d stopJob).Status = .failed ∧
      (processJob d stopJob).Error
        = "failed to identify connected components: " ++
            "circular dependency detected: " ++ goFormatStrings ws := by
  have hxdom : x ∈ envNames (Build d cs) := by
    have h1 := lookupNode_name hlookx
    exact h1 ▸ name_mem_envNames (mem_of_lookupNode hlookx)
  rcases gcc_cycle_error hwf hxdom hlookx hphx hcyc with ⟨ws, hgcc, hgccS⟩
  have hstart := startContainers_gcc_error hlist hgcc
    ⟨startJob.Timeout, startJob.Ignore⟩
  have hstop := stopContainers_gcc_error hlist hgccS
    ⟨stopJob.Timeout, stopJob.Ignore⟩
  refine ⟨ws, hstart, hstop, ?_, ?_, ?_, ?_⟩
  · simp only [processJob, processStartJob, SetStatus, hst, hstart, SetError,
      orchErrString]
  · simp only [processJob, processStartJob, SetStatus, hst, hstart, SetError,
      orchErrString]
  · simp only [processJob, processStopJob, SetStatus, hsp, hstop, SetError,
      orchErrString]
  · simp only [processJob, processStopJob, SetStatus, hsp, hstop, SetError,
      orchErrString]

end CycleClaim

/-! ### Concrete daemons for witnesses -/

/-- Labels of a managed container depending on `dep`. -/
def labDep (dep : String) : String → Option String := fun key =>
  if key = managedKey then some "true"
  else if key = dependsOnKey then some dep
  else none

/-- Labels of a managed container with no dependencies. -/
def labPlain : String → Option String := fun key =>
  if key = managedKey then some "true" else none

def sumAW : Summary := ⟨"idA", ["/a"], "exited", labDep "b"⟩
def sumBW : Summary := ⟨"idB", ["/b"], "exited", labDep "a"⟩
def csW : List Summary := [sumAW, sumBW]

/-- A daemon whose two managed containers depend on each other. -/
def dCycleW : Daemon :=
  { ListManagedContainers := .ok csW
    GetContainer := fun _ => .ok ⟨some ⟨some 5⟩⟩
    IsContainerRunning := fun _ => .ok false
    StartContainer := fun _ => .ok ()
    StopContainer := fun _ _ => .ok () }

def envW : List Node := Build dCycleW csW

def nodeAW : Node := (lookupNode envW "a").getD (NewPlaceholderNode "z")

/-- Witness for C2 on the two-node cycle `a ⇄ b`. -/
theorem cycle_rejected_before_any_action_witness :
    ∃ ws,
      StartContainers dCycleW ⟨600, []⟩ = ([], .error (GErr.cycle ws)) ∧
      StopContainers dCycleW ⟨300, []⟩ = ([], .error (GErr.cycle ws)) ∧
      (processJob dCycleW (NewJob "s" .start 0 600 [])).Status = .failed ∧
      (processJob dCycleW (NewJob "s" .start 0 600 [])).Error
        = "failed to identify connected components: " ++
            "circular dependency detected: " ++ goFormatStrings ws ∧
      (processJob dCycleW (NewJob "t" .stop 0 300 [])).Status = .failed ∧
      (processJob dCycleW (NewJob "t" .stop 0 300 [])).Error
        = "failed to identify connected components: " ++
            "circular dependency detected: " ++ goFormatStrings ws :=
  cycle_rejected_before_any_action dCycleW csW rfl (by decide)
    "a" nodeAW 2 (by decide) (by decide)
    (ChildPath.cons (show ChildStep envW "a" "b" by unfold ChildStep; decide)
      (ChildPath.single (show ChildStep envW "b" "a" by unfold ChildStep; decide)))
    (NewJob "s" .start 0 600 []) (NewJob "t" .stop 0 300 []) rfl rfl

/-! ## Claim C5: partial failures are data, not status -/

/-- Claim C5: a job whose executor call returns without a top-level
error ends Completed — the per-node `Failed` list is only recorded on
the job — and a job ends Failed exactly on a top-level executor
error. -/
theorem executor_ok_yields_completed (d : Daemon) (job : Job) :
    (job.JType = .start →
      (∀ res, (StartContainers d ⟨job.Timeout, job.Ignore⟩).2 = .ok res →
        (processJob d job).Status = .completed ∧
        (processJob d job).Failed = res.Failed) ∧
      (∀ e, (StartContainers d ⟨job.Timeout, job.Ignore⟩).2 = .error e →
        (processJob d job).Status = .failed)) ∧
    (job.JType = .stop →
      (∀ res, (StopContainers d ⟨job.Timeout, job.Ignore⟩).2 = .ok res →
        (processJob d job).Status = .completed ∧
        (processJob d job).Failed = res.Failed) ∧
      (∀ e, (StopContainers d ⟨job.Timeout, job.Ignore⟩).2 = .error e →
        (processJob d job).Status = .failed)) := by
  constructor
  · intro hst
    constructor
    · intro res hres
      constructor <;>
        simp only [processJob, processStartJob, SetStatus, hst, hres,
          SetResults, SetError]
    · intro e hres
      simp only [processJob, processStartJob, SetStatus, hst, hres, SetError]
  · intro hsp
    constructor
    · intro res hres
      constructor <;>
        simp only [processJob, processStopJob, SetStatus, hsp, hres,
          SetResults, SetError]
    · intro e hres
      simp only [processJob, processStopJob, SetStatus, hsp, hres, SetError]

def sumMW : Summary := ⟨"idM", ["/m"], "exited", labPlain⟩

/-- A daemon with one managed container whose start call fails. -/
def dFailW : Daemon :=
  { ListManagedContainers := .ok [sumMW]
    GetContainer := fun _ => .ok ⟨some ⟨some 5⟩⟩
    IsContainerRunning := fun _ => .ok false
    StartContainer := fun _ => .error "boom"
    StopContainer := fun _ _ => .ok () }

/-- Witness for C5: the executor reports `m` failed but no top-level
error, and the job still completes with the failure recorded. -/
theorem executor_ok_yields_completed_witness :
    (processJob dFailW (NewJob "j" .start 0 600 [])).Status = .completed ∧
    (processJob dFailW (NewJob "j" .start 0 600 [])).Failed = ["m"] ∧
    (["m"] : List String) ≠ [] := by
  have h := ((executor_ok_yields_completed dFailW
    (NewJob "j" .start 0 600 [])).1 rfl).1 ⟨[], [], ["m"]⟩ rfl
  exact ⟨h.1, h.2, by decide⟩


/-! ## Claim C8: the label parser -/

/-- "ASCII whitespace" as the spec words the trimming (space, tab,
LF, VT, FF, CR) — to be compared against the `strings.TrimSpace`
trimming the code performs, whose white-space set is Unicode's. -/
def asciiIsSpace (c : Char) : Bool :=
  c = ' ' || c = '\t' || c = '\n' ||
  c = Char.ofNat 0x0B || c = Char.ofNat 0x0C || c = '\r'

/-- Trimming per the spec's words ("ASCII whitespace"). -/
def asciiTrim (s : String) : String :=
  String.mk (((s.data.dropWhile asciiIsSpace).reverse.dropWhile asciiIsSpace).reverse)

/-- The dependency list exactly as the spec words it: split on commas,
ASCII whitespace trimmed from each element, empty elements dropped. -/
def asciiDependencyList (v : String) : List String :=
  ((goSplit v ',').map asciiTrim).filter (fun t => t ≠ "")

/-- A label map whose dependency value ends in U+00A0 (no-break space,
Unicode white space but not ASCII white space). -/
def labNbsp : String → Option String := fun key =>
  if key = managedKey then some "true"
  else if key = dependsOnKey then some "a " else none

/-- Counterexample to claim C8 as stated: `strings.TrimSpace` trims
Unicode white space, not merely ASCII white space, so on the value
`"a<NBSP>"` the parser yields `["a"]` where the claim's ASCII-trimmed
reading yields `["a "]`. -/
theorem parseLabels_ascii_trim_counterexample :
    labNbsp dependsOnKey = some "a " ∧
    (ParseLabels labNbsp).DependsOn = ["a"] ∧
    asciiDependencyList "a " = ["a "] ∧
    (ParseLabels labNbsp).DependsOn ≠ asciiDependencyList "a " := by
  refine ⟨rfl, by decide, by decide, by decide⟩

/-- Claim C8 (amended: the trimming is Unicode white space, Go's
`strings.TrimSpace`, rather than ASCII white space): `ParseLabels`
always returns a record in which a missing managed key yields `false`,
a missing controller key yields `true` with a case-insensitive explicit
`"false"` opting out, the dependency value is comma-split /
whitespace-trimmed / empties-dropped, the delay is a base-10 integer
with invalid or non-positive values yielding 0, and the boolean label
values are compared case-insensitively. -/
theorem parseLabels_spec (labels : String → Option String) :
    (labels managedKey = none → (ParseLabels labels).Managed = false) ∧
    (∀ v, labels managedKey = some v →
      ((ParseLabels labels).Managed = true ↔ goToLower v = "true")) ∧
    (labels controllerKey = none →
      (ParseLabels labels).ControllerEnabled = true) ∧
    (∀ v, labels controllerKey = some v →
      ((ParseLabels labels).ControllerEnabled = false ↔
        goToLower v = "false")) ∧
    ((ParseLabels labels).DependsOn =
      match labels dependsOnKey with
      | some v => specDependencyList v
      | none => []) ∧
    (labels delayKey = none → (ParseLabels labels).DependsOnDelay = 0) ∧
    (∀ v, labels delayKey = some v →
      (∀ k, goAtoi v = some k → 0 < k →
        (ParseLabels labels).DependsOnDelay = k) ∧
      (∀ k, goAtoi v = some k → k ≤ 0 →
        (ParseLabels labels).DependsOnDelay = 0) ∧
      (goAtoi v = none → (ParseLabels labels).DependsOnDelay = 0)) ∧
    (labels healthchecksKey = none →
      (ParseLabels labels).DependsOnHealthchecks = false) ∧
    (∀ v, labels healthchecksKey = some v →
      ((ParseLabels labels).DependsOnHealthchecks = true ↔
        goToLower v = "true")) := by
  refine ⟨?_, ?_, ?_, ?_, ?_, ?_, ?_, ?_, ?_⟩
  · intro h; simp [ParseLabels, h]
  · intro v hv; simp [ParseLabels, hv]
  · intro h; simp [ParseLabels, h]
  · intro v hv; simp [ParseLabels, hv]
  · cases hv : labels dependsOnKey with
    | none => simp [ParseLabels, hv]
    | some v =>
        by_cases hv0 : v = ""
        · subst hv0
          simp [ParseLabels, hv]
          decide
        · simp [ParseLabels, hv, hv0, splitDeps_eq_spec]
  · intro h; simp [ParseLabels, h]
  · intro v hv
    refine ⟨?_, ?_, ?_⟩
    · intro k hk hkpos
      simp [ParseLabels, hv, hk, hkpos]
    · intro k hk hkle
      have : ¬ k > 0 := by omega
      simp [ParseLabels, hv, hk, this]
    · intro hk; simp [ParseLabels, hv, hk]
  · intro h; simp [ParseLabels, h]
  · intro v hv; simp [ParseLabels, hv]

/-- The label map of the "fully configured container" test case. -/
def labFull : String → Option String := fun key =>
  if key = managedKey then some "TRUE"
  else if key = dependsOnKey then some " traefik , redis ," 
  else if key = delayKey then some "7" else none

/-- Witness for C8 at a concrete label map: managed `"TRUE"` parses
case-insensitively, the missing controller key defaults to `true`, the
dependency value is split/trimmed/filtered, and delay `"7"` parses. -/
theorem parseLabels_spec_witness :
    (ParseLabels labFull).Managed = true ∧
    (ParseLabels labFull).ControllerEnabled = true ∧
    (ParseLabels labFull).DependsOn = ["traefik", "redis"] ∧
    (ParseLabels labFull).DependsOnDelay = 7 ∧
    (ParseLabels labFull).DependsOnHealthchecks = false := by
  obtain ⟨-, hman, hctrlnone, -, hdep, -, hdelay, hhnone, -⟩ :=
    parseLabels_spec labFull
  refine ⟨?_, ?_, ?_, ?_, ?_⟩
  · exact (hman "TRUE" rfl).mpr (by decide)
  · exact hctrlnone rfl
  · exact hdep.trans (by decide)
  · exact (hdelay "7" rfl).1 7 (by decide) (by decide)
  · exact hhnone rfl


/-! ## Claims C4 and C6: the HTTP handlers -/

theorem foldl_trimSplitAppend (params : List String) (acc : List String) :
    params.foldl trimSplitAppend acc
      = acc ++ (params.map specDependencyList).flatten := by
  induction params generalizing acc with
  | nil => simp
  | cons v vs ih =>
      rw [List.foldl_cons, trimSplitAppend_eq, ih]
      simp

/-- A request carrying an `ignore` parameter. -/
def reqIgnore : HttpRequest := ⟨[], ["a,b"]⟩

/-- Counterexample to claim C4 as stated: `HandleStartContainers` never
reads the `ignore` query parameter — it submits the job with a nil
ignore list even when the request carries `ignore=a,b`, whereas the
claimed parse yields `["a", "b"]` (which is what the stop handler
does submit). -/
theorem handleStart_ignore_counterexample :
    ((HandleStartContainers ⟨false, []⟩ "j1" 0 reqIgnore).1.jobs.map
      (fun p => p.2.Ignore)) = [[]] ∧
    reqIgnore.ignoreParams.foldl trimSplitAppend [] = ["a", "b"] ∧
    ((HandleStopContainers ⟨false, []⟩ "j1" 0 reqIgnore).1.jobs.map
      (fun p => p.2.Ignore)) = [["a", "b"]] := by
  refine ⟨by decide, by decide, by decide⟩

/-- Claim C4 (amended: only the stop handler parses `ignore`; the start
handler submits a nil ignore list): when not blocked, each handler
appends exactly one pending job, with timeout parsed from the first
`timeout` value (defaults 600 for start, 300 for stop), the stop job's
ignore list being the repeated `ignore` values each comma-split,
trimmed and empties-dropped, and the start job's ignore list empty. -/
theorem handlers_query_parsing (st : ServerState) (newId : String)
    (now : Int) (req : HttpRequest) (h : st.isBlocked = false) :
    HandleStartContainers st newId now req =
      ({ st with jobs := st.jobs ++
          [(newId, NewJob newId .start now
              (parseTimeout 600 req.timeoutParams) [])] },
        200, .jobIdB newId) ∧
    HandleStopContainers st newId now req =
      ({ st with jobs := st.jobs ++
          [(newId, NewJob newId .stop now
              (parseTimeout 300 req.timeoutParams)
              ((req.ignoreParams.map specDependencyList).flatten))] },
        200, .jobIdB newId) ∧
    (req.timeoutParams = [] →
      parseTimeout 600 req.timeoutParams = 600 ∧
      parseTimeout 300 req.timeoutParams = 300) := by
  refine ⟨?_, ?_, ?_⟩
  · simp [HandleStartContainers, h, NewJob]
  · simp [HandleStopContainers, h, NewJob, foldl_trimSplitAppend]
  · intro hq; rw [hq]; exact ⟨rfl, rfl⟩

/-- Witness for C4 at a concrete unblocked request: the stop job gets
the trimmed, comma-split ignore list and the parsed timeout, the start
job an empty ignore list; empty parameters give the defaults. -/
theorem handlers_query_parsing_witness :
    ((HandleStartContainers ⟨false, []⟩ "j1" 7 ⟨["42"], [" a , b ", "c"]⟩).1.jobs
      = [("j1", NewJob "j1" .start 7 42 [])]) ∧
    ((HandleStopContainers ⟨false, []⟩ "j2" 7 ⟨["42"], [" a , b ", "c"]⟩).1.jobs
      = [("j2", NewJob "j2" .stop 7 42 ["a", "b", "c"])]) ∧
    ((HandleStopContainers ⟨false, []⟩ "j3" 7 ⟨[], []⟩).1.jobs
      = [("j3", NewJob "j3" .stop 7 300 [])]) := by
  have h1 := handlers_query_parsing ⟨false, []⟩ "j1" 7 ⟨["42"], [" a , b ", "c"]⟩ rfl
  have h2 := handlers_query_parsing ⟨false, []⟩ "j2" 7 ⟨["42"], [" a , b ", "c"]⟩ rfl
  have h3 := handlers_query_parsing ⟨false, []⟩ "j3" 7 ⟨[], []⟩ rfl
  refine ⟨?_, ?_, ?_⟩
  · rw [show (HandleStartContainers ⟨false, []⟩ "j1" 7 ⟨["42"], [" a , b ", "c"]⟩).1.jobs
        = _ from congrArg (fun r => r.1.jobs) h1.1]
    decide
  · rw [show (HandleStopContainers ⟨false, []⟩ "j2" 7 ⟨["42"], [" a , b ", "c"]⟩).1.jobs
        = _ from congrArg (fun r => r.1.jobs) h2.2.1]
    decide
  · rw [show (HandleStopContainers ⟨false, []⟩ "j3" 7 ⟨[], []⟩).1.jobs
        = _ from congrArg (fun r => r.1.jobs) h3.2.1]
    decide

/-- Claim C6: while the blocked flag is set, both submit handlers
answer 503 `Operation blocked` leaving the state (hence the job
registry) untouched, while job status, block, unblock, and ping answer
as they do unblocked. -/
theorem blocked_gating (st : ServerState) (newId : String) (now : Int)
    (req : HttpRequest) (jobID dur : String) (h : st.isBlocked = true) :
    HandleStartContainers st newId now req
      = (st, 503, .errorB "Operation blocked") ∧
    HandleStopContainers st newId now req
      = (st, 503, .errorB "Operation blocked") ∧
    HandleGetJobStatus st jobID = HandleGetJobStatus ⟨false, st.jobs⟩ jobID ∧
    (HandleBlock st dur).2.1 = 200 ∧
    (HandleBlock st dur).1.jobs = st.jobs ∧
    HandleUnblock st = (⟨false, st.jobs⟩, 200,
      .messageB "Operations are now unblocked") ∧
    HandleHealth st = (200, .statusB "healthy") := by
  refine ⟨?_, ?_, rfl, ?_, rfl, rfl, rfl⟩
  · simp [HandleStartContainers, h]
  · simp [HandleStopContainers, h]
  · unfold HandleBlock; rfl

/-- Witness for C6 at a concrete blocked state. -/
theorem blocked_gating_witness :
    HandleStartContainers ⟨true, []⟩ "j1" 0 ⟨[], []⟩
      = (⟨true, []⟩, 503, .errorB "Operation blocked") ∧
    HandleStopContainers ⟨true, []⟩ "j1" 0 ⟨[], []⟩
      = (⟨true, []⟩, 503, .errorB "Operation blocked") ∧
    HandleGetJobStatus ⟨true, []⟩ "j1" = (404, .statusB "not_found") ∧
    HandleUnblock ⟨true, []⟩ = (⟨false, []⟩, 200,
      .messageB "Operations are now unblocked") ∧
    HandleHealth ⟨true, []⟩ = (200, .statusB "healthy") := by
  have h := blocked_gating ⟨true, []⟩ "j1" 0 ⟨[], []⟩ "j1" "" rfl
  exact ⟨h.1, h.2.1, by decide, h.2.2.2.2.2.1, h.2.2.2.2.2.2⟩


/-! ## Claims C9 and C3: the retention cleanup -/

/-- The eligibility test of `cleanup` as a predicate: terminal status
and older than the retention window. -/
def eligPred (now : Int) (p : String × Job) : Bool :=
  decide (p.2.Status = JobStatus.completed ∨ p.2.Status = JobStatus.failed) &&
  decide (now - p.2.CreatedAt > MinJobRetention)

theorem eligibleOf_eq (now : Int) (jobs : List (String × Job)) :
    eligibleOf now jobs
      = (jobs.filter (eligPred now)).map
          (fun p => (⟨p.1, now - p.2.CreatedAt⟩ : JobAge)) := by
  suffices h : ∀ (l : List (String × Job)) (acc : List JobAge),
      l.foldl (fun acc p =>
        if p.2.Status = JobStatus.completed ∨ p.2.Status = JobStatus.failed then
          if now - p.2.CreatedAt > MinJobRetention then
            acc ++ [⟨p.1, now - p.2.CreatedAt⟩]
          else acc
        else acc) acc
        = acc ++ (l.filter (eligPred now)).map
            (fun p => (⟨p.1, now - p.2.CreatedAt⟩ : JobAge)) by
    simpa [eligibleOf] using h jobs []
  intro l
  induction l with
  | nil => intro acc; simp
  | cons p t ih =>
      intro acc
      rw [List.foldl_cons]
      by_cases h1 : p.2.Status = JobStatus.completed ∨ p.2.Status = JobStatus.failed
      · by_cases h2 : now - p.2.CreatedAt > MinJobRetention
        · rw [if_pos h1, if_pos h2, ih]
          simp [List.filter_cons, eligPred, h1, h2]
        · rw [if_pos h1, if_neg h2, ih]
          simp [List.filter_cons, eligPred, h1, h2]
      · rw [if_neg h1, ih]
        simp [List.filter_cons, eligPred, h1]

theorem mem_eligible_elim {now : Int} {jobs : List (String × Job)}
    {a : JobAge} (ha : a ∈ eligibleOf now jobs) :
    ∃ p ∈ jobs, p.1 = a.id ∧
      (p.2.Status = JobStatus.completed ∨ p.2.Status = JobStatus.failed) ∧
      now - p.2.CreatedAt > MinJobRetention := by
  rw [eligibleOf_eq] at ha
  obtain ⟨p, hp, rfl⟩ := List.mem_map.1 ha
  have hmem := List.mem_of_mem_filter hp
  have hpred := List.of_mem_filter hp
  unfold eligPred at hpred
  simp only [Bool.and_eq_true, decide_eq_true_eq] at hpred
  exact ⟨p, hmem, rfl, hpred.1, hpred.2⟩

theorem eligible_ids_eq (now : Int) (jobs : List (String × Job)) :
    (eligibleOf now jobs).map JobAge.id
      = (jobs.filter (eligPred now)).map Prod.fst := by
  rw [eligibleOf_eq, List.map_map]
  rfl

theorem pair_eq_of_nodup_keys :
    ∀ {jobs : List (String × Job)}, (jobs.map Prod.fst).Nodup →
    ∀ {p q : String × Job}, p ∈ jobs → q ∈ jobs → p.1 = q.1 → p = q := by
  intro jobs
  induction jobs with
  | nil => intro _ p q hp; exact absurd hp (List.not_mem_nil p)
  | cons r t ih =>
      intro hnd p q hp hq hpq
      rw [List.map_cons, List.nodup_cons] at hnd
      obtain ⟨hr1, hnd'⟩ := hnd
      rcases List.mem_cons.1 hp with hp1 | hp1 <;>
        rcases List.mem_cons.1 hq with hq1 | hq1
      · rw [hp1, hq1]
      · refine absurd ?_ hr1
        rw [← hp1, hpq]
        exact List.mem_map_of_mem Prod.fst hq1
      · refine absurd ?_ hr1
        rw [← hq1, ← hpq]
        exact List.mem_map_of_mem Prod.fst hp1
      · exact ih hnd' hp1 hq1 hpq

theorem getD_set_perm {α : Type} (d x : α) :
    ∀ (t : List α) (j : Nat), j < t.length →
      ((t.getD j d) :: t.set j x).Perm (x :: t) := by
  intro t
  induction t with
  | nil => intro j hj; simp at hj
  | cons y t ih =>
      intro j hj
      cases j with
      | zero =>
          simp only [List.getD_cons_zero, List.set_cons_zero]
          exact List.Perm.swap x y t
      | succ j =>
          simp only [List.getD_cons_succ, List.set_cons_succ]
          have h1 : ((t.getD j d) :: y :: t.set j x).Perm
              (y :: (t.getD j d) :: t.set j x) := List.Perm.swap _ _ _
          have h2 : (y :: (t.getD j d) :: t.set j x).Perm (y :: x :: t) :=
            List.Perm.cons y (ih j (by simpa using hj))
          have h3 : (y :: x :: t).Perm (x :: y :: t) := List.Perm.swap _ _ _
          exact (h1.trans h2).trans h3

theorem set_swap_perm {α : Type} (d : α) :
    ∀ (l : List α) (i j : Nat), i < l.length → j < l.length →
      ((l.set i (l.getD j d)).set j (l.getD i d)).Perm l := by
  intro l
  induction l with
  | nil => intro i j hi _; simp at hi
  | cons x t ih =>
      intro i j hi hj
      cases i with
      | zero =>
          cases j with
          | zero =>
              simp only [List.getD_cons_zero, List.set_cons_zero]
              exact List.Perm.refl _
          | succ j =>
              simp only [List.getD_cons_zero, List.getD_cons_succ,
                List.set_cons_zero, List.set_cons_succ]
              exact getD_set_perm d x t j (by simpa using hj)
      | succ i =>
          cases j with
          | zero =>
              simp only [List.getD_cons_zero, List.getD_cons_succ,
                List.set_cons_zero, List.set_cons_succ]
              exact getD_set_perm d x t i (by simpa using hi)
          | succ j =>
              simp only [List.getD_cons_succ, List.set_cons_succ]
              exact List.Perm.cons x
                (ih i j (by simpa using hi) (by simpa using hj))

theorem swapIfOlder_perm (arr : List JobAge) (i j : Nat)
    (hi : i < arr.length) (hj : j < arr.length) :
    (swapIfOlder arr i j).Perm arr := by
  unfold swapIfOlder
  by_cases h : ageAt arr j > ageAt arr i
  · rw [if_pos h]
    exact set_swap_perm ⟨"", 0⟩ arr i j hi hj
  · rw [if_neg h]

theorem sortInner_succ (i j fuel : Nat) (arr : List JobAge) :
    sortInner i j (fuel + 1) arr
      = if j < arr.length then sortInner i (j + 1) fuel (swapIfOlder arr i j)
        else arr := rfl

theorem sortOuter_succ (i fuel : Nat) (arr : List JobAge) :
    sortOuter i (fuel + 1) arr
      = if i < arr.length then
          sortOuter (i + 1) fuel (sortInner i (i + 1) arr.length arr)
        else arr := rfl

theorem sortInner_perm :
    ∀ (fuel j : Nat) (arr : List JobAge) (i : Nat), i < arr.length →
      (sortInner i j fuel arr).Perm arr := by
  intro fuel
  induction fuel with
  | zero => intro j arr i _; exact List.Perm.refl arr
  | succ fuel ih =>
      intro j arr i hi
      rw [sortInner_succ]
      by_cases hjl : j < arr.length
      · rw [if_pos hjl]
        have hp := swapIfOlder_perm arr i j hi hjl
        have hi' : i < (swapIfOlder arr i j).length := by
          rw [hp.length_eq]; exact hi
        exact (ih (j + 1) (swapIfOlder arr i j) i hi').trans hp
      · rw [if_neg hjl]

theorem sortOuter_perm :
    ∀ (fuel i : Nat) (arr : List JobAge), (sortOuter i fuel arr).Perm arr := by
  intro fuel
  induction fuel with
  | zero => intro i arr; exact List.Perm.refl arr
  | succ fuel ih =>
      intro i arr
      rw [sortOuter_succ]
      by_cases hil : i < arr.length
      · rw [if_pos hil]
        have hp := sortInner_perm arr.length (i + 1) arr i hil
        exact (ih (i + 1) _).trans hp
      · rw [if_neg hil]

theorem sortEligible_perm (arr : List JobAge) :
    (sortEligible arr).Perm arr :=
  sortOuter_perm arr.length 0 arr

theorem length_filter_not_mem :
    ∀ (jobs : List (String × Job)) (victims : List String),
      (jobs.map Prod.fst).Nodup → victims.Nodup →
      (∀ v ∈ victims, v ∈ jobs.map Prod.fst) →
      (jobs.filter (fun p => p.1 ∉ victims)).length
        = jobs.length - victims.length := by
  intro jobs
  induction jobs with
  | nil =>
      intro victims _ _ hsub
      have hv : victims = [] := by
        cases victims with
        | nil => rfl
        | cons v vs => exact absurd (hsub v (List.mem_cons_self v vs)) (by simp)
      rw [hv]
      rfl
  | cons r t ih =>
      intro victims hkeys hvnd hsub
      rw [List.map_cons, List.nodup_cons] at hkeys
      obtain ⟨hr1, hknd⟩ := hkeys
      by_cases hrv : r.1 ∈ victims
      · have hfilter : (r :: t).filter (fun p => p.1 ∉ victims)
            = t.filter (fun p => p.1 ∉ victims) := by
          rw [List.filter_cons]
          simp [hrv]
        have hcongr : t.filter (fun p => p.1 ∉ victims)
            = t.filter (fun p => p.1 ∉ victims.erase r.1) := by
          apply List.filter_congr
          intro q hq
          have hqne : q.1 ≠ r.1 := by
            intro h
            exact hr1 (h ▸ List.mem_map_of_mem Prod.fst hq)
          simp [List.mem_erase_of_ne hqne]
        have herase_sub : ∀ v ∈ victims.erase r.1, v ∈ t.map Prod.fst := by
          intro v hv
          obtain ⟨hvne, hvmem⟩ := (List.Nodup.mem_erase_iff hvnd).1 hv
          rcases List.mem_cons.1 (hsub v hvmem) with h | h
          · exact absurd h hvne
          · exact h
        have hrec := ih (victims.erase r.1) hknd (hvnd.erase r.1) herase_sub
        have hlen : (victims.erase r.1).length ≤ t.length := by
          have h := length_le_of_nodup_subset (hvnd.erase r.1) herase_sub
          simpa using h
        rw [List.length_erase_of_mem hrv] at hlen
        have hvpos : 0 < victims.length := List.length_pos_of_mem hrv
        rw [hfilter, hcongr, hrec, List.length_erase_of_mem hrv]
        simp only [List.length_cons]
        omega
      · have hfilter : (r :: t).filter (fun p => p.1 ∉ victims)
            = r :: t.filter (fun p => p.1 ∉ victims) := by
          rw [List.filter_cons]
          simp [hrv]
        have hsub' : ∀ v ∈ victims, v ∈ t.map Prod.fst := by
          intro v hv
          rcases List.mem_cons.1 (hsub v hv) with h | h
          · exact absurd (h ▸ hv) hrv
          · exact h
        have hrec := ih victims hknd hvnd hsub'
        have hlen : victims.length ≤ t.length := by
          have h := length_le_of_nodup_subset hvnd hsub'
          simpa using h
        rw [hfilter]
        simp only [List.length_cons, hrec]
        omega

/-- `cleanup` either leaves the registry alone or filters out a victim
list whose every entry names an eligible job. -/
theorem cleanup_filter_form (now : Int) (jobs : List (String × Job)) :
    cleanup now jobs = jobs ∨
    ∃ victims : List String,
      (∀ v ∈ victims, ∃ a ∈ eligibleOf now jobs, a.id = v) ∧
      cleanup now jobs = jobs.filter (fun p => p.1 ∉ victims) := by
  by_cases h0 : jobs.length = 0
  · left
    unfold cleanup
    rw [if_pos h0]
  by_cases h1 : (eligibleOf now jobs).length = 0 ∧ jobs.length ≤ MaxJobCount
  · left
    simp only [cleanup]
    rw [if_neg h0, if_pos h1]
  by_cases h2 : jobs.length > MaxJobCount
  · right
    refine ⟨((sortEligible (eligibleOf now jobs)).take
        (min (jobs.length - MaxJobCount)
          (sortEligible (eligibleOf now jobs)).length)).map JobAge.id,
      ?_, ?_⟩
    · intro v hv
      obtain ⟨a, ha, rfl⟩ := List.mem_map.1 hv
      exact ⟨a, (sortEligible_perm _).subset (List.take_subset _ _ ha), rfl⟩
    · simp only [cleanup]
      rw [if_neg h0, if_neg h1, if_pos h2]
  by_cases h3 : (eligibleOf now jobs).length > 0
  · right
    refine ⟨(eligibleOf now jobs).map JobAge.id, ?_, ?_⟩
    · intro v hv
      obtain ⟨a, ha, rfl⟩ := List.mem_map.1 hv
      exact ⟨a, ha, rfl⟩
    · simp only [cleanup]
      rw [if_neg h0, if_neg h1, if_neg h2, if_pos h3]
  · left
    simp only [cleanup]
    rw [if_neg h0, if_neg h1, if_neg h2, if_neg h3]

/-- Claim C9: a cleanup pass never deletes a non-terminal job — any
Pending or Running registry entry is still present, unchanged, after
`cleanup` (the registry is a Go map, so its keys are distinct). -/
theorem cleanup_preserves_nonterminal (now : Int)
    (jobs : List (String × Job)) (hkeys : (jobs.map Prod.fst).Nodup)
    (p : String × Job) (hp : p ∈ jobs)
    (hstat : p.2.Status = JobStatus.pending ∨
      p.2.Status = JobStatus.running) :
    p ∈ cleanup now jobs := by
  rcases cleanup_filter_form now jobs with h | ⟨victims, hvic, h⟩
  · rw [h]; exact hp
  · rw [h]
    refine List.mem_filter.2 ⟨hp, ?_⟩
    simp only [decide_eq_true_eq]
    intro hmem
    obtain ⟨a, ha, haid⟩ := hvic p.1 hmem
    obtain ⟨q, hq, hqid, hqstat, -⟩ := mem_eligible_elim ha
    have hqp : q = p := pair_eq_of_nodup_keys hkeys hq hp (by rw [hqid, haid])
    rw [hqp] at hqstat
    rcases hstat with h1 | h1 <;> rcases hqstat with h2 | h2 <;>
      rw [h1] at h2 <;> exact JobStatus.noConfusion h2

/-- An hour-old completed job and a fresh pending job. -/
def jobDoneOld : Job := SetStatus (NewJob "a" .start 0 600 []) .completed

def jobPend : Job := NewJob "b" .start 9000 600 []

/-- Witness for C9: the pending job survives the pass that evicts the
old completed one. -/
theorem cleanup_preserves_nonterminal_witness :
    ("b", jobPend) ∈ cleanup 10000 [("a", jobDoneOld), ("b", jobPend)] ∧
    ("a", jobDoneOld) ∉ cleanup 10000 [("a", jobDoneOld), ("b", jobPend)] := by
  refine ⟨cleanup_preserves_nonterminal 10000
    [("a", jobDoneOld), ("b", jobPend)] (by decide)
    ("b", jobPend) (by decide) (Or.inl rfl), by decide⟩

/-- A registry of 1001 pending jobs. -/
def jobsC3 : List (String × Job) :=
  (List.range 1001).map (fun i => (toString i, NewJob (toString i) .start 0 600 []))

/-- Counterexample to claim C3 as stated: with 1001 pending jobs no job
is eligible, so the over-the-cap branch computes an empty victim list
and the registry still holds 1001 > 1000 jobs after the pass. -/
theorem cleanup_bound_counterexample :
    MaxJobCount < jobsC3.length ∧
    (cleanup 100000 jobsC3).length = jobsC3.length := by
  have hlen : jobsC3.length = 1001 := by simp [jobsC3]
  have helig : eligibleOf 100000 jobsC3 = [] := by
    rw [eligibleOf_eq]
    have hfil : jobsC3.filter (eligPred 100000) = [] := by
      rw [List.filter_eq_nil_iff]
      intro p hp
      obtain ⟨i, -, rfl⟩ := List.mem_map.1 hp
      simp [eligPred, NewJob]
    rw [hfil]
    rfl
  have hclean : cleanup 100000 jobsC3 = jobsC3 := by
    simp only [cleanup]
    rw [if_neg (by rw [hlen]; decide), if_neg (by rw [helig, hlen]; decide),
      if_pos (by rw [hlen]; decide : jobsC3.length > MaxJobCount), helig]
    have hs : sortEligible ([] : List JobAge) = [] := rfl
    rw [hs]
    simp
  constructor
  · rw [hlen]; decide
  · rw [hclean]

/-- The exact size of the registry after a cleanup pass (the pass
removes `min(total − 1000, #eligible)` jobs when over the cap and every
eligible job otherwise), and the ≤ 1000 bound under the proviso that at
least `total − 1000` jobs are eligible. -/
theorem cleanup_size_characterization (now : Int)
    (jobs : List (String × Job)) (hkeys : (jobs.map Prod.fst).Nodup) :
    (cleanup now jobs).length =
      (if jobs.length > MaxJobCount then
        jobs.length - min (jobs.length - MaxJobCount)
          (eligibleOf now jobs).length
      else jobs.length - (eligibleOf now jobs).length) ∧
    (jobs.length - MaxJobCount ≤ (eligibleOf now jobs).length →
      (cleanup now jobs).length ≤ MaxJobCount) := by
  have hE : (eligibleOf now jobs).length ≤ jobs.length := by
    rw [eligibleOf_eq, List.length_map]
    exact List.length_filter_le _ _
  have hmain : (cleanup now jobs).length =
      (if jobs.length > MaxJobCount then
        jobs.length - min (jobs.length - MaxJobCount)
          (eligibleOf now jobs).length
      else jobs.length - (eligibleOf now jobs).length) := by
    by_cases h0 : jobs.length = 0
    · have hnil : jobs = [] := List.length_eq_zero.1 h0
      rw [hnil]
      simp [cleanup, eligibleOf, MaxJobCount]
    by_cases h1 : (eligibleOf now jobs).length = 0 ∧ jobs.length ≤ MaxJobCount
    · have hcl : cleanup now jobs = jobs := by
        simp only [cleanup]
        rw [if_neg h0, if_pos h1]
      rw [hcl, h1.1, if_neg (by omega : ¬ jobs.length > MaxJobCount)]
      omega
    by_cases h2 : jobs.length > MaxJobCount
    · have hperm := sortEligible_perm (eligibleOf now jobs)
      have hslen := hperm.length_eq
      have hvlen : (((sortEligible (eligibleOf now jobs)).take
          (min (jobs.length - MaxJobCount)
            (sortEligible (eligibleOf now jobs)).length)).map JobAge.id).length
          = min (jobs.length - MaxJobCount)
              (sortEligible (eligibleOf now jobs)).length := by
        rw [List.length_map, List.length_take]
        exact Nat.min_eq_left (Nat.min_le_right _ _)
      have hEnd : ((eligibleOf now jobs).map JobAge.id).Nodup := by
        rw [eligible_ids_eq]
        exact List.Nodup.sublist ((List.filter_sublist _).map _) hkeys
      have hvnd : (((sortEligible (eligibleOf now jobs)).take
          (min (jobs.length - MaxJobCount)
            (sortEligible (eligibleOf now jobs)).length)).map JobAge.id).Nodup := by
        refine List.Nodup.sublist ((List.take_sublist _ _).map _) ?_
        exact ((hperm.map JobAge.id).nodup_iff).2 hEnd
      have hvsub : ∀ v ∈ (((sortEligible (eligibleOf now jobs)).take
          (min (jobs.length - MaxJobCount)
            (sortEligible (eligibleOf now jobs)).length)).map JobAge.id),
          v ∈ jobs.map Prod.fst := by
        intro v hv
        obtain ⟨a, ha, rfl⟩ := List.mem_map.1 hv
        have haE : a ∈ eligibleOf now jobs :=
          hperm.subset (List.take_subset _ _ ha)
        have hida : a.id ∈ (eligibleOf now jobs).map JobAge.id :=
          List.mem_map_of_mem _ haE
        rw [eligible_ids_eq] at hida
        exact ((List.filter_sublist _).map _).subset hida
      have hcl : cleanup now jobs
          = jobs.filter (fun p => p.1 ∉
              (((sortEligible (eligibleOf now jobs)).take
                (min (jobs.length - MaxJobCount)
                  (sortEligible (eligibleOf now jobs)).length)).map JobAge.id)) := by
        simp only [cleanup]
        rw [if_neg h0, if_neg h1, if_pos h2]
      rw [hcl, length_filter_not_mem jobs _ hkeys hvnd hvsub, hvlen,
        if_pos h2, hslen]
    by_cases h3 : (eligibleOf now jobs).length > 0
    · have hvnd : ((eligibleOf now jobs).map JobAge.id).Nodup := by
        rw [eligible_ids_eq]
        exact List.Nodup.sublist ((List.filter_sublist _).map _) hkeys
      have hvsub : ∀ v ∈ (eligibleOf now jobs).map JobAge.id,
          v ∈ jobs.map Prod.fst := by
        intro v hv
        rw [eligible_ids_eq] at hv
        exact ((List.filter_sublist _).map _).subset hv
      have hcl : cleanup now jobs
          = jobs.filter (fun p => p.1 ∉ (eligibleOf now jobs).map JobAge.id) := by
        simp only [cleanup]
        rw [if_neg h0, if_neg h1, if_neg h2, if_pos h3]
      rw [hcl, length_filter_not_mem jobs _ hkeys hvnd hvsub,
        List.length_map, if_neg h2]
    · exact absurd ⟨by omega, by omega⟩ h1
  refine ⟨hmain, ?_⟩
  intro hge
  rw [hmain]
  by_cases h : jobs.length > MaxJobCount
  · rw [if_pos h]; omega
  · rw [if_neg h]; omega

/-- The size characterization at a concrete registry: the old
completed job is evicted, the fresh pending one kept. -/
theorem cleanup_size_characterization_witness :
    (cleanup 10000 [("a", jobDoneOld), ("b", jobPend)]).length = 1 := by
  have h := (cleanup_size_characterization 10000
    [("a", jobDoneOld), ("b", jobPend)] (by decide)).1
  rw [h]
  decide


/-! ### The age sort orders oldest-first (selection-sort correctness),
so the over-the-cap eviction takes the oldest eligible jobs. -/

theorem getD_set_ne {α : Type} (d x : α) (l : List α) {i k : Nat}
    (hik : i ≠ k) : (l.set i x).getD k d = l.getD k d := by
  by_cases hk : k < l.length
  · rw [List.getD_eq_getElem _ _ (by simpa using hk),
      List.getD_eq_getElem _ _ hk]
    simp [List.getElem_set, hik]
  · have hk' : l.length ≤ k := Nat.le_of_not_lt hk
    rw [List.getD_eq_default _ _ (by simpa using hk'),
      List.getD_eq_default _ _ hk']

theorem getD_set_self {α : Type} (d x : α) (l : List α) {i : Nat}
    (h : i < l.length) : (l.set i x).getD i d = x := by
  rw [List.getD_eq_getElem _ _ (by simpa using h)]
  simp [List.getElem_set]

theorem getD_drop (l : List JobAge) (n k : Nat) :
    (l.drop n).getD k ⟨"", 0⟩ = l.getD (n + k) ⟨"", 0⟩ := by
  induction n generalizing l k with
  | zero => simp
  | succ n ih =>
      cases l with
      | nil => simp
      | cons x t =>
          have harith : n + 1 + k = (n + k) + 1 := by omega
          rw [List.drop_succ_cons, ih, harith, List.getD_cons_succ]

theorem getD_take (l : List JobAge) {n k : Nat} (h : k < n) :
    (l.take n).getD k ⟨"", 0⟩ = l.getD k ⟨"", 0⟩ := by
  induction n generalizing l k with
  | zero => omega
  | succ n ih =>
      cases l with
      | nil => simp
      | cons x t =>
          cases k with
          | zero => simp
          | succ k =>
              simp only [List.take_succ_cons, List.getD_cons_succ]
              exact ih t (by omega)

theorem getD_mem_drop (l : List JobAge) {n m : Nat} (h1 : n ≤ m)
    (h2 : m < l.length) : l.getD m ⟨"", 0⟩ ∈ l.drop n := by
  have he : l.getD m ⟨"", 0⟩ = (l.drop n).getD (m - n) ⟨"", 0⟩ := by
    rw [getD_drop]
    congr 1
    omega
  rw [he]
  have hlt : m - n < (l.drop n).length := by
    rw [List.length_drop]; omega
  rw [List.getD_eq_getElem _ _ hlt]
  exact List.getElem_mem hlt

theorem mem_drop_getD (l : List JobAge) {n : Nat} {v : JobAge}
    (h : v ∈ l.drop n) :
    ∃ m, n ≤ m ∧ m < l.length ∧ l.getD m ⟨"", 0⟩ = v := by
  obtain ⟨k, hk, hkv⟩ := List.mem_iff_getElem.1 h
  have hk2 : n + k < l.length := by
    rw [List.length_drop] at hk; omega
  refine ⟨n + k, by omega, hk2, ?_⟩
  rw [← getD_drop, List.getD_eq_getElem _ _ hk]
  exact hkv

theorem mem_take_getD (l : List JobAge) {n : Nat} {v : JobAge}
    (h : v ∈ l.take n) :
    ∃ k, k < n ∧ k < l.length ∧ l.getD k ⟨"", 0⟩ = v := by
  obtain ⟨k, hk, hkv⟩ := List.mem_iff_getElem.1 h
  have hk2 : k < n ∧ k < l.length := by
    rw [List.length_take] at hk; omega
  refine ⟨k, hk2.1, hk2.2, ?_⟩
  rw [← getD_take l hk2.1, List.getD_eq_getElem _ _ hk]
  exact hkv

theorem take_eq_of_pointwise :
    ∀ (l₁ l₂ : List JobAge) (i : Nat), l₁.length = l₂.length →
      (∀ k, k < i → l₁.getD k ⟨"", 0⟩ = l₂.getD k ⟨"", 0⟩) →
      l₁.take i = l₂.take i := by
  intro l₁
  induction l₁ with
  | nil =>
      intro l₂ i hlen _
      have : l₂ = [] := List.length_eq_zero.1 hlen.symm
      rw [this]
  | cons x t ih =>
      intro l₂ i hlen hpt
      cases l₂ with
      | nil => simp at hlen
      | cons y u =>
          cases i with
          | zero => rfl
          | succ i =>
              have hxy : x = y := by
                have := hpt 0 (by omega)
                simpa using this
              have hlen' : t.length = u.length := by simpa using hlen
              have hpt' : ∀ k, k < i →
                  t.getD k ⟨"", 0⟩ = u.getD k ⟨"", 0⟩ := by
                intro k hk
                have := hpt (k + 1) (by omega)
                simpa using this
              rw [List.take_succ_cons, List.take_succ_cons, hxy,
                ih u i hlen' hpt']

theorem swapIfOlder_getD_ne (arr : List JobAge) {i j k : Nat}
    (hik : i ≠ k) (hjk : j ≠ k) :
    (swapIfOlder arr i j).getD k ⟨"", 0⟩ = arr.getD k ⟨"", 0⟩ := by
  unfold swapIfOlder
  by_cases h : ageAt arr j > ageAt arr i
  · rw [if_pos h, getD_set_ne _ _ _ hjk, getD_set_ne _ _ _ hik]
  · rw [if_neg h]

theorem swapIfOlder_ageAt_i (arr : List JobAge) {i j : Nat}
    (hi : i < arr.length) (hij : i ≠ j) :
    ageAt arr i ≤ ageAt (swapIfOlder arr i j) i := by
  unfold swapIfOlder
  by_cases h : ageAt arr j > ageAt arr i
  · rw [if_pos h]
    unfold ageAt
    rw [getD_set_ne _ _ _ (Ne.symm hij), getD_set_self _ _ _ hi]
    exact le_of_lt h
  · rw [if_neg h]

theorem swapIfOlder_ageAt_j_le_i (arr : List JobAge) {i j : Nat}
    (hi : i < arr.length) (hj : j < arr.length) (hij : i ≠ j) :
    ageAt (swapIfOlder arr i j) j ≤ ageAt (swapIfOlder arr i j) i := by
  unfold swapIfOlder
  by_cases h : ageAt arr j > ageAt arr i
  · rw [if_pos h]
    unfold ageAt
    rw [getD_set_self _ _ _ (by simpa using hj),
      getD_set_ne _ _ _ (Ne.symm hij), getD_set_self _ _ _ hi]
    exact le_of_lt h
  · rw [if_neg h]
    exact not_lt.1 h

theorem sortInner_spec :
    ∀ (fuel : Nat) (arr : List JobAge) (i j : Nat), i < j →
      arr.length ≤ j + fuel →
      (∀ k, k ≠ i → k < j →
        (sortInner i j fuel arr).getD k ⟨"", 0⟩ = arr.getD k ⟨"", 0⟩) ∧
      ageAt arr i ≤ ageAt (sortInner i j fuel arr) i ∧
      (∀ k, j ≤ k → k < arr.length →
        ageAt (sortInner i j fuel arr) k
          ≤ ageAt (sortInner i j fuel arr) i) := by
  intro fuel
  induction fuel with
  | zero =>
      intro arr i j hij hlen
      exact ⟨fun k _ _ => rfl, le_refl _,
        fun k hk1 hk2 => absurd hk2 (by omega)⟩
  | succ fuel ih =>
      intro arr i j hij hlen
      rw [sortInner_succ]
      by_cases hjl : j < arr.length
      · rw [if_pos hjl]
        have hslen : (swapIfOlder arr i j).length = arr.length :=
          (swapIfOlder_perm arr i j (by omega) hjl).length_eq
        obtain ⟨ih1, ih2, ih3⟩ := ih (swapIfOlder arr i j) i (j + 1)
          (by omega) (by rw [hslen]; omega)
        refine ⟨?_, ?_, ?_⟩
        · intro k hk hkj
          rw [ih1 k hk (by omega),
            swapIfOlder_getD_ne arr (Ne.symm hk) (by omega)]
        · exact le_trans (swapIfOlder_ageAt_i arr (by omega) (by omega)) ih2
        · intro k hjk hklen
          rcases Nat.eq_or_lt_of_le hjk with heq | hlt
          · rw [← heq]
            have hpres : (sortInner i (j + 1) fuel
                (swapIfOlder arr i j)).getD j ⟨"", 0⟩
                = (swapIfOlder arr i j).getD j ⟨"", 0⟩ :=
              ih1 j (by omega) (by omega)
            have hagej : ageAt (sortInner i (j + 1) fuel
                (swapIfOlder arr i j)) j
                = ageAt (swapIfOlder arr i j) j := by
              unfold ageAt
              rw [hpres]
            rw [hagej]
            exact le_trans
              (swapIfOlder_ageAt_j_le_i arr (by omega) hjl (by omega)) ih2
          · exact ih3 k (by omega) (by rw [hslen]; exact hklen)
      · rw [if_neg hjl]
        exact ⟨fun k _ _ => rfl, le_refl _,
          fun k hk1 hk2 => absurd hk2 (by omega)⟩

theorem sortOuter_spec :
    ∀ (fuel : Nat) (arr : List JobAge) (i : Nat), arr.length ≤ i + fuel →
      (∀ k m, k < i → k < m → m < arr.length →
        ageAt arr m ≤ ageAt arr k) →
      ∀ k m, k < m → m < (sortOuter i fuel arr).length →
        ageAt (sortOuter i fuel arr) m ≤ ageAt (sortOuter i fuel arr) k := by
  intro fuel
  induction fuel with
  | zero =>
      intro arr i hlen hA k m hkm hm
      have hm' : m < arr.length := hm
      exact hA k m (by omega) hkm hm'
  | succ fuel ih =>
      intro arr i hlen hA
      rw [sortOuter_succ]
      by_cases hil : i < arr.length
      · rw [if_pos hil]
        obtain ⟨h1, h2, h3⟩ := sortInner_spec arr.length arr i (i + 1)
          (by omega) (by omega)
        have hperm2 : (sortInner i (i + 1) arr.length arr).Perm arr :=
          sortInner_perm arr.length (i + 1) arr i hil
        have hlen2 : (sortInner i (i + 1) arr.length arr).length
            = arr.length := hperm2.length_eq
        have htake : (sortInner i (i + 1) arr.length arr).take i
            = arr.take i :=
          take_eq_of_pointwise _ arr i hlen2
            (fun k hk => h1 k (by omega) (by omega))
        have hdrop : ((sortInner i (i + 1) arr.length arr).drop i).Perm
            (arr.drop i) := by
          have he : arr.take i ++ (sortInner i (i + 1) arr.length arr).drop i
              = sortInner i (i + 1) arr.length arr := by
            rw [← htake]
            exact List.take_append_drop i _
          have hp : (arr.take i ++
              (sortInner i (i + 1) arr.length arr).drop i).Perm
              (arr.take i ++ arr.drop i) := by
            rw [he, List.take_append_drop]
            exact hperm2
          exact (List.perm_append_left_iff _).1 hp
        have hA2 : ∀ k m, k < i + 1 → k < m →
            m < (sortInner i (i + 1) arr.length arr).length →
            ageAt (sortInner i (i + 1) arr.length arr) m
              ≤ ageAt (sortInner i (i + 1) arr.length arr) k := by
          intro k m hk hkm hm
          rw [hlen2] at hm
          by_cases hki : k < i
          · have hpk : (sortInner i (i + 1) arr.length arr).getD k ⟨"", 0⟩
                = arr.getD k ⟨"", 0⟩ := h1 k (by omega) (by omega)
            by_cases hmi : m < i
            · have hpm : (sortInner i (i + 1) arr.length arr).getD m ⟨"", 0⟩
                  = arr.getD m ⟨"", 0⟩ := h1 m (by omega) (by omega)
              have hold := hA k m hki hkm hm
              unfold ageAt at hold ⊢
              rw [hpk, hpm]
              exact hold
            · have hmem1 : (sortInner i (i + 1) arr.length arr).getD m ⟨"", 0⟩
                  ∈ (sortInner i (i + 1) arr.length arr).drop i :=
                getD_mem_drop _ (by omega) (by rw [hlen2]; exact hm)
              have hmem2 : (sortInner i (i + 1) arr.length arr).getD m ⟨"", 0⟩
                  ∈ arr.drop i := hdrop.subset hmem1
              obtain ⟨m₀, him, hm₀len, hm₀v⟩ := mem_drop_getD arr hmem2
              have hold := hA k m₀ hki (by omega) hm₀len
              unfold ageAt at hold ⊢
              rw [hpk, ← hm₀v]
              exact hold
          · have hk_eq : k = i := by omega
            rw [hk_eq]
            exact h3 m (by omega) hm
        exact ih (sortInner i (i + 1) arr.length arr) (i + 1)
          (by rw [hlen2]; omega) hA2
      · rw [if_neg hil]
        intro k m hkm hm
        have hm' : m < arr.length := hm
        exact hA k m (by omega) hkm hm'

theorem sortEligible_sorted (arr : List JobAge) :
    ∀ k m, k < m → m < (sortEligible arr).length →
      ageAt (sortEligible arr) m ≤ ageAt (sortEligible arr) k :=
  sortOuter_spec arr.length arr 0 (by omega)
    (fun k _ hk _ _ => absurd hk (Nat.not_lt_zero k))

theorem sorted_take_dominates (s : List JobAge)
    (hsort : ∀ k m, k < m → m < s.length → ageAt s m ≤ ageAt s k)
    (n : Nat) : ∀ a ∈ s.take n, ∀ b ∈ s.drop n, b.age ≤ a.age := by
  intro a ha b hb
  obtain ⟨k, hkn, hks, hkv⟩ := mem_take_getD s ha
  obtain ⟨m, hnm, hms, hmv⟩ := mem_drop_getD s hb
  have h := hsort k m (by omega) hms
  unfold ageAt at h
  rw [hkv, hmv] at h
  exact h

/-- Claim C3 (amended: the pass deletes exactly `min(total − 1000,
#eligible)` jobs when the total exceeds 1000, every one of them
eligible (terminal and older than one hour) and at least as old as
every surviving eligible job — the oldest eligible first — and deletes
exactly the eligible jobs otherwise; so the registry ends at most 1000
only when at least `total − 1000` jobs are eligible, and stays above
1000 when too many jobs are non-terminal or young). -/
theorem cleanup_evicts_oldest_eligible (now : Int)
    (jobs : List (String × Job)) (hkeys : (jobs.map Prod.fst).Nodup) :
    (jobs.length > MaxJobCount →
      ∃ victims : List JobAge,
        (∀ a ∈ victims, a ∈ eligibleOf now jobs) ∧
        victims.length = min (jobs.length - MaxJobCount)
          (eligibleOf now jobs).length ∧
        (∀ a ∈ victims, ∀ b ∈ eligibleOf now jobs,
          b.id ∉ victims.map JobAge.id → b.age ≤ a.age) ∧
        cleanup now jobs
          = jobs.filter (fun p => p.1 ∉ victims.map JobAge.id) ∧
        (cleanup now jobs).length = jobs.length - victims.length) ∧
    (¬ jobs.length > MaxJobCount →
      cleanup now jobs
        = jobs.filter (fun p => p.1 ∉ (eligibleOf now jobs).map JobAge.id) ∧
      (cleanup now jobs).length
        = jobs.length - (eligibleOf now jobs).length) ∧
    (jobs.length - MaxJobCount ≤ (eligibleOf now jobs).length →
      (cleanup now jobs).length ≤ MaxJobCount) := by
  have hfull := cleanup_size_characterization now jobs hkeys
  refine ⟨?_, ?_, hfull.2⟩
  · intro h2
    have h0 : ¬ jobs.length = 0 := by omega
    have h1 : ¬ ((eligibleOf now jobs).length = 0 ∧
        jobs.length ≤ MaxJobCount) := by
      rintro ⟨-, hle⟩
      omega
    refine ⟨(sortEligible (eligibleOf now jobs)).take
        (min (jobs.length - MaxJobCount)
          (sortEligible (eligibleOf now jobs)).length),
      ?_, ?_, ?_, ?_, ?_⟩
    · intro a ha
      exact (sortEligible_perm _).subset (List.take_subset _ _ ha)
    · rw [List.length_take, Nat.min_eq_left (Nat.min_le_right _ _),
        (sortEligible_perm (eligibleOf now jobs)).length_eq]
    · intro a ha b hb hbid
      have hbs : b ∈ sortEligible (eligibleOf now jobs) :=
        (sortEligible_perm _).symm.subset hb
      rw [← List.take_append_drop
        (min (jobs.length - MaxJobCount)
          (sortEligible (eligibleOf now jobs)).length)
        (sortEligible (eligibleOf now jobs))] at hbs
      rcases List.mem_append.1 hbs with htk | hdp
      · exact absurd (List.mem_map_of_mem JobAge.id htk) hbid
      · exact sorted_take_dominates _ (sortEligible_sorted _) _ a ha b hdp
    · simp only [cleanup]
      rw [if_neg h0, if_neg h1, if_pos h2]
    · have hlen := hfull.1
      rw [if_pos h2] at hlen
      rw [hlen, List.length_take, Nat.min_eq_left (Nat.min_le_right _ _),
        (sortEligible_perm (eligibleOf now jobs)).length_eq]
  · intro h2
    have hlen := hfull.1
    rw [if_neg h2] at hlen
    by_cases h0 : jobs.length = 0
    · have hnil : jobs = [] := List.length_eq_zero.1 h0
      subst hnil
      exact ⟨rfl, rfl⟩
    by_cases h1 : (eligibleOf now jobs).length = 0 ∧
        jobs.length ≤ MaxJobCount
    · have hcl : cleanup now jobs = jobs := by
        simp only [cleanup]
        rw [if_neg h0, if_pos h1]
      have helignil : eligibleOf now jobs = [] :=
        List.length_eq_zero.1 h1.1
      refine ⟨?_, hlen⟩
      rw [hcl, helignil]
      exact ((List.filter_eq_self).2 (fun a _ => by simp)).symm
    by_cases h3 : (eligibleOf now jobs).length > 0
    · refine ⟨?_, hlen⟩
      simp only [cleanup]
      rw [if_neg h0, if_neg h1, if_neg h2, if_pos h3]
    · exact absurd ⟨by omega, by omega⟩ h1

/-- The `i`-th registry key of the over-the-cap witness: `i` copies of
`'a'` (injective in `i`, so the 1001 keys are distinct). -/
def keyFn (i : Nat) : String := String.mk (List.replicate i 'a')

/-- The `i`-th job of the over-the-cap witness: two old completed jobs
of different ages, then 999 pending ones. -/
def jobAt (i : Nat) : Job :=
  if i = 0 then SetStatus (NewJob (keyFn 0) .start 0 600 []) .completed
  else if i = 1 then SetStatus (NewJob (keyFn 1) .start 5000 600 []) .completed
  else NewJob (keyFn i) .start 9000 600 []

/-- A registry of 1001 jobs: the cap is exceeded by one, and exactly
two jobs are eligible. -/
def jobsBig : List (String × Job) :=
  (List.range 1001).map (fun i => (keyFn i, jobAt i))

set_option maxRecDepth 100000 in
/-- Witness for C3 on the over-the-cap branch: of the two eligible jobs
(ages 10000 and 5000) exactly one — the oldest — is evicted, the newer
eligible job and the 999 pending ones survive, and the registry ends at
the 1000 cap. -/
theorem cleanup_evicts_oldest_eligible_witness :
    (jobsBig.map Prod.fst).Nodup ∧
    jobsBig.length > MaxJobCount ∧
    (∃ victims : List JobAge,
      (∀ a ∈ victims, a ∈ eligibleOf 10000 jobsBig) ∧
      victims.length = 1 ∧
      (∀ a ∈ victims, ∀ b ∈ eligibleOf 10000 jobsBig,
        b.id ∉ victims.map JobAge.id → b.age ≤ a.age) ∧
      cleanup 10000 jobsBig
        = jobsBig.filter (fun p => p.1 ∉ victims.map JobAge.id) ∧
      (cleanup 10000 jobsBig).length = 1000) ∧
    (keyFn 0, jobAt 0) ∉ cleanup 10000 jobsBig ∧
    (keyFn 1, jobAt 1) ∈ cleanup 10000 jobsBig := by
  have hinj : Function.Injective keyFn := by
    intro a b h
    have h2 : List.replicate a 'a' = List.replicate b 'a' :=
      congrArg String.data h
    have h3 := congrArg List.length h2
    simpa using h3
  have hmap : jobsBig.map Prod.fst = (List.range 1001).map keyFn := by
    simp only [jobsBig, List.map_map]
    rfl
  have hkeys : (jobsBig.map Prod.fst).Nodup := by
    rw [hmap]
    exact List.Nodup.map hinj (List.nodup_range 1001)
  have hlen1001 : jobsBig.length = 1001 := by simp [jobsBig]
  have hbig : jobsBig.length > MaxJobCount := by
    rw [hlen1001]
    decide
  have hE : (eligibleOf 10000 jobsBig).length = 2 := by decide
  obtain ⟨victims, hvelig, hvlen, hvold, hvfil, hvclen⟩ :=
    (cleanup_evicts_oldest_eligible 10000 jobsBig hkeys).1 hbig
  refine ⟨hkeys, hbig, ⟨victims, hvelig, ?_, hvold, hvfil, ?_⟩, ?_, ?_⟩
  · rw [hvlen, hlen1001, hE]
    decide
  · rw [hvclen, hvlen, hlen1001, hE]
    decide
  · decide
  · decide

end SDC
